import Mathlib

/-!
# Tic-tac-toe (`game.cpp`): board primitives, computer opponent and minimax

A shallow embedding of the decision-making part of `game.cpp`:
`isValidPosition`, `makeMove`, `checkWin`, `isBoardFull`, `computerMove` and
`minimax`.

* `char board[3][3]` is a record of nine `Char` cells in row-major order,
  `board[i][j]` being cell `3 * i + j`.
* Functions that mutate the board in place take the board and return the
  board they leave behind (explicit state passing).
* `int` values are `Int`. The three operations of `minimax` that can leave the
  range of a 32-bit `int`, `depth + 1`, `10 - depth` and `depth - 10`, go
  through `wrapInt`, the two's-complement wrap-around the compiled program
  shows (C++ itself gives signed overflow no defined result). Every score and
  depth that occurs in a search from depth `0` lies in `[-1000, 1000]`, where
  `wrapInt` changes nothing.
* `rand()` is a parameter: `computerMove` takes the value the call returns.
* `minimax` recurses once per speculative placement; the embedding counts the
  nesting of calls with a fuel argument and `minimax` runs it with fuel `9`,
  the number of cells.
-/

namespace TicTacToe

/-- The array `char board[BOARD_SIZE][BOARD_SIZE]`, stored row by row. -/
structure Board where
  c0 : Char
  c1 : Char
  c2 : Char
  c3 : Char
  c4 : Char
  c5 : Char
  c6 : Char
  c7 : Char
  c8 : Char
deriving DecidableEq, Repr

/-- The cell at flat offset `k` from the start of the array. -/
def Board.cell (b : Board) : Fin 9 → Char
  | 0 => b.c0
  | 1 => b.c1
  | 2 => b.c2
  | 3 => b.c3
  | 4 => b.c4
  | 5 => b.c5
  | 6 => b.c6
  | 7 => b.c7
  | 8 => b.c8

/-- Store `c` at flat offset `k`. -/
def Board.setCell (b : Board) (k : Fin 9) (c : Char) : Board :=
  match k with
  | 0 => { b with c0 := c }
  | 1 => { b with c1 := c }
  | 2 => { b with c2 := c }
  | 3 => { b with c3 := c }
  | 4 => { b with c4 := c }
  | 5 => { b with c5 := c }
  | 6 => { b with c6 := c }
  | 7 => { b with c7 := c }
  | 8 => { b with c8 := c }

/-- Flat offset of `board[i][j]`. -/
def idx (i j : Fin 3) : Fin 9 := ⟨3 * i.val + j.val, by omega⟩

/-- Read `board[i][j]`. -/
def Board.get (b : Board) (i j : Fin 3) : Char := b.cell (idx i j)

/-- Write `board[i][j] = c`. -/
def Board.set (b : Board) (i j : Fin 3) (c : Char) : Board := b.setCell (idx i j) c

/-- The values `0, 1, 2` a loop `for (int i = 0; i < BOARD_SIZE; i++)` runs through. -/
def range3 : List (Fin 3) := [0, 1, 2]

/-- The board after `resetBoard`: every cell is `' '`. -/
def emptyBoard : Board := ⟨' ', ' ', ' ', ' ', ' ', ' ', ' ', ' ', ' '⟩

/-- The loop of `checkWin` over `i`: row `i`, then column `i`. -/
def checkWinLoop (b : Board) (symbol : Char) : List (Fin 3) → Bool
  | [] => false
  | i :: rest =>
    if b.get i 0 == symbol && b.get i 1 == symbol && b.get i 2 == symbol then true
    else if b.get 0 i == symbol && b.get 1 i == symbol && b.get 2 i == symbol then true
    else checkWinLoop b symbol rest

/-- The function `checkWin(board, symbol)`. -/
def checkWin (b : Board) (symbol : Char) : Bool :=
  if checkWinLoop b symbol range3 then true
  else if b.get 0 0 == symbol && b.get 1 1 == symbol && b.get 2 2 == symbol then true
  else if b.get 0 2 == symbol && b.get 1 1 == symbol && b.get 2 0 == symbol then true
  else false

/-- The inner loop of `isBoardFull` over `j`; `false` is the early `return false`. -/
def isBoardFullCols (b : Board) (i : Fin 3) : List (Fin 3) → Bool
  | [] => true
  | j :: rest => if b.get i j == ' ' then false else isBoardFullCols b i rest

/-- The outer loop of `isBoardFull` over `i`. -/
def isBoardFullRows (b : Board) : List (Fin 3) → Bool
  | [] => true
  | i :: rest => if isBoardFullCols b i range3 then isBoardFullRows b rest else false

/-- The function `isBoardFull(board)`. -/
def isBoardFull (b : Board) : Bool := isBoardFullRows b range3

/-- The function `isValidPosition(row, col)`. -/
def isValidPosition (row col : Int) : Bool :=
  decide (row ≥ 0) && decide (row < 3) && decide (col ≥ 0) && decide (col < 3)

/-- The cell that `board[row][col]` designates for arbitrary `int` indices.
The nine chars of `char board[3][3]` are contiguous, so the expression
addresses the char at offset `3 * row + col` from the start of the array;
`none` when that offset lies outside the array. -/
def cellOffset (row col : Int) : Option (Fin 9) :=
  if h : 0 ≤ 3 * row + col ∧ 3 * row + col < 9 then some ⟨(3 * row + col).toNat, by omega⟩
  else none

/-- The function `makeMove(board, row, col, symbol)`: the returned flag and the board after
the call; `none` when `board[row][col]` is outside the array. The function
makes no test of `row` and `col`. -/
def makeMove (b : Board) (row col : Int) (symbol : Char) : Option (Bool × Board) :=
  match cellOffset row col with
  | none => none
  | some k => if b.cell k == ' ' then some (true, b.setCell k symbol) else some (false, b)

/-- The function `getPlayerMove()`: `inputs` are the pairs of integers read from `cin`, in
order; the first one that satisfies `isValidPosition` is returned (`none`
when the input ends before that). -/
def getPlayerMove : List (Int × Int) → Option (Int × Int)
  | [] => none
  | (row, col) :: rest =>
    if isValidPosition row col then some (row, col) else getPlayerMove rest

/-- The value a 32-bit `int` holds after an arithmetic operation whose exact
result is `x`: `x` itself when it fits, and `x` reduced modulo `2^32` into
`[-2^31, 2^31 - 1]` otherwise. -/
def wrapInt (x : Int) : Int := (x + 2147483648) % 4294967296 - 2147483648

/-- State of a search loop of `minimax`: the board, `bestScore`, and the bound
the loop updates (`alpha` when maximizing, `beta` when minimizing). -/
structure LoopState where
  board : Board
  bestScore : Int
  bound : Int

/-- Inner loop (over `j`) of the maximizing branch of `minimax`. `call` is the
recursive call `minimax(board, depth + 1, false, alpha, beta)`. The loop stops
at the `break`, which leaves this loop only. -/
def maxCols (call : Board → Int → Int → Option (Int × Board)) (beta : Int) (i : Fin 3) :
    List (Fin 3) → LoopState → Option LoopState
  | [], st => some st
  | j :: rest, st =>
    if st.board.get i j == ' ' then
      match call (st.board.set i j 'O') st.bound beta with
      | none => none
      | some (score, b1) =>
        let b2 := b1.set i j ' '
        let bestScore := max score st.bestScore
        let alpha := max st.bound bestScore
        if beta ≤ alpha then some ⟨b2, bestScore, alpha⟩
        else maxCols call beta i rest ⟨b2, bestScore, alpha⟩
    else maxCols call beta i rest st

/-- Outer loop (over `i`) of the maximizing branch of `minimax`. -/
def maxRows (call : Board → Int → Int → Option (Int × Board)) (beta : Int) :
    List (Fin 3) → LoopState → Option LoopState
  | [], st => some st
  | i :: rest, st =>
    match maxCols call beta i range3 st with
    | none => none
    | some st1 => maxRows call beta rest st1

/-- Inner loop (over `j`) of the minimizing branch of `minimax`. `call` is the
recursive call `minimax(board, depth + 1, true, alpha, beta)`. -/
def minCols (call : Board → Int → Int → Option (Int × Board)) (alpha : Int) (i : Fin 3) :
    List (Fin 3) → LoopState → Option LoopState
  | [], st => some st
  | j :: rest, st =>
    if st.board.get i j == ' ' then
      match call (st.board.set i j 'X') alpha st.bound with
      | none => none
      | some (score, b1) =>
        let b2 := b1.set i j ' '
        let bestScore := min score st.bestScore
        let beta := min st.bound bestScore
        if beta ≤ alpha then some ⟨b2, bestScore, beta⟩
        else minCols call alpha i rest ⟨b2, bestScore, beta⟩
    else minCols call alpha i rest st

/-- Outer loop (over `i`) of the minimizing branch of `minimax`. -/
def minRows (call : Board → Int → Int → Option (Int × Board)) (alpha : Int) :
    List (Fin 3) → LoopState → Option LoopState
  | [], st => some st
  | i :: rest, st =>
    match minCols call alpha i range3 st with
    | none => none
    | some st1 => minRows call alpha rest st1

/-- The function `minimax(board, depth, isMaximizing, alpha, beta)` run with at
most `fuel` nested recursive calls. Returns the score and the board as the call
leaves it; `none` when a deeper call would be needed, in this call or in any
call below it (a `none` is passed up unchanged). -/
def minimaxFuel : Nat → Board → Int → Bool → Int → Int → Option (Int × Board)
  | fuel, b, depth, isMaximizing, alpha, beta =>
    if checkWin b 'O' then some (wrapInt (10 - depth), b)
    else if checkWin b 'X' then some (wrapInt (depth - 10), b)
    else if isBoardFull b then some (0, b)
    else
      match fuel with
      | 0 => none
      | fuel + 1 =>
        if isMaximizing then
          match maxRows (fun b1 a1 b2 => minimaxFuel fuel b1 (wrapInt (depth + 1)) false a1 b2) beta range3
              ⟨b, -1000, alpha⟩ with
          | none => none
          | some st => some (st.bestScore, st.board)
        else
          match minRows (fun b1 a1 b2 => minimaxFuel fuel b1 (wrapInt (depth + 1)) true a1 b2) alpha range3
              ⟨b, 1000, beta⟩ with
          | none => none
          | some st => some (st.bestScore, st.board)

/-- The function `minimax(board, depth, isMaximizing, alpha, beta)`; the
default arguments of the C++ declaration are `alpha = -1000`, `beta = 1000`.
Every nested call fills one more cell, so nine levels of nesting are enough on
any board. -/
def minimax (b : Board) (depth : Int) (isMaximizing : Bool) (alpha beta : Int) :
    Option (Int × Board) :=
  minimaxFuel 9 b depth isMaximizing alpha beta

/-- Number of cells holding `' '`. -/
def emptyCount (b : Board) : Nat :=
  (if b.c0 == ' ' then 1 else 0) + (if b.c1 == ' ' then 1 else 0) + (if b.c2 == ' ' then 1 else 0)
    + (if b.c3 == ' ' then 1 else 0) + (if b.c4 == ' ' then 1 else 0) + (if b.c5 == ' ' then 1 else 0)
    + (if b.c6 == ' ' then 1 else 0) + (if b.c7 == ' ' then 1 else 0) + (if b.c8 == ' ' then 1 else 0)

/-- Inner loop of the unpruned maximizing branch. -/
def plainMaxCols (call : Board → Option Int) (b : Board) (i : Fin 3) :
    List (Fin 3) → Int → Option Int
  | [], best => some best
  | j :: rest, best =>
    if b.get i j == ' ' then
      match call (b.set i j 'O') with
      | none => none
      | some score => plainMaxCols call b i rest (max score best)
    else plainMaxCols call b i rest best

/-- Outer loop of the unpruned maximizing branch. -/
def plainMaxRows (call : Board → Option Int) (b : Board) : List (Fin 3) → Int → Option Int
  | [], best => some best
  | i :: rest, best =>
    match plainMaxCols call b i range3 best with
    | none => none
    | some best1 => plainMaxRows call b rest best1

/-- Inner loop of the unpruned minimizing branch. -/
def plainMinCols (call : Board → Option Int) (b : Board) (i : Fin 3) :
    List (Fin 3) → Int → Option Int
  | [], best => some best
  | j :: rest, best =>
    if b.get i j == ' ' then
      match call (b.set i j 'X') with
      | none => none
      | some score => plainMinCols call b i rest (min score best)
    else plainMinCols call b i rest best

/-- Outer loop of the unpruned minimizing branch. -/
def plainMinRows (call : Board → Option Int) (b : Board) : List (Fin 3) → Int → Option Int
  | [], best => some best
  | i :: rest, best =>
    match plainMinCols call b i range3 best with
    | none => none
    | some best1 => plainMinRows call b rest best1

/-- Unpruned minimax with at most `fuel` nested calls. -/
def minimaxPlainFuel : Nat → Board → Int → Bool → Option Int
  | fuel, b, depth, isMaximizing =>
    if checkWin b 'O' then some (wrapInt (10 - depth))
    else if checkWin b 'X' then some (wrapInt (depth - 10))
    else if isBoardFull b then some 0
    else
      match fuel with
      | 0 => none
      | fuel + 1 =>
        if isMaximizing then
          plainMaxRows (fun b1 => minimaxPlainFuel fuel b1 (wrapInt (depth + 1)) false) b range3 (-1000)
        else
          plainMinRows (fun b1 => minimaxPlainFuel fuel b1 (wrapInt (depth + 1)) true) b range3 1000

/-- Unpruned minimax: the score of exhaustive search. -/
def minimaxPlain (b : Board) (depth : Int) (isMaximizing : Bool) : Option Int :=
  minimaxPlainFuel 9 b depth isMaximizing

/-! ## The computer opponent -/

/-- The type `enum DifficultyLevel` with values `EASY = 1`, `MEDIUM`, `HARD`. -/
inductive DifficultyLevel where
  | EASY
  | MEDIUM
  | HARD
deriving DecidableEq, Repr

/-- The empty cells of row `i` among columns `js`, in increasing column order
(the `push_back` calls of the inner loop). -/
def emptyCellsCols (b : Board) (i : Fin 3) : List (Fin 3) → List (Fin 3 × Fin 3)
  | [] => []
  | j :: rest =>
    if b.get i j == ' ' then (i, j) :: emptyCellsCols b i rest else emptyCellsCols b i rest

/-- The vector `emptyCells` after the two nested loops over the rows `rows`. -/
def emptyCellsRows (b : Board) : List (Fin 3) → List (Fin 3 × Fin 3)
  | [] => []
  | i :: rest => emptyCellsCols b i range3 ++ emptyCellsRows b rest

/-- The vector `emptyCells`: all empty cells in row-major order. -/
def emptyCells (b : Board) : List (Fin 3 × Fin 3) := emptyCellsRows b range3

/-- The tail of the Easy branch and of the Medium branch: when `cells` is not
empty, `index = rand() % cells.size()` and `'O'` goes to `cells[index]`.
`r` is the value `rand()` returns. -/
def placeRandom (b : Board) (cells : List (Fin 3 × Fin 3)) (r : Nat) : Board :=
  if h : cells ≠ [] then
    let p := cells.get ⟨r % cells.length, Nat.mod_lt _ (List.length_pos.mpr h)⟩
    b.set p.1 p.2 'O'
  else b

/-- How a loop that contains a `return` ends: `done` when the function has
returned from inside the loop, `next` when the loop ran to its end. Both carry
the board at that point. -/
inductive Ctl where
  | done (b : Board)
  | next (b : Board)
deriving DecidableEq, Repr

/-- Inner loop of Medium's "try to win first". -/
def tryWinCols (i : Fin 3) : List (Fin 3) → Board → Ctl
  | [], b => Ctl.next b
  | j :: rest, b =>
    if b.get i j == ' ' then
      if checkWin (b.set i j 'O') 'O' then Ctl.done (b.set i j 'O')
      else tryWinCols i rest ((b.set i j 'O').set i j ' ')
    else tryWinCols i rest b

/-- Outer loop of Medium's "try to win first". -/
def tryWinRows : List (Fin 3) → Board → Ctl
  | [], b => Ctl.next b
  | i :: rest, b =>
    match tryWinCols i range3 b with
    | Ctl.done b1 => Ctl.done b1
    | Ctl.next b1 => tryWinRows rest b1

/-- Inner loop of Medium's "try to block". -/
def tryBlockCols (i : Fin 3) : List (Fin 3) → Board → Ctl
  | [], b => Ctl.next b
  | j :: rest, b =>
    if b.get i j == ' ' then
      if checkWin (b.set i j 'X') 'X' then Ctl.done ((b.set i j 'X').set i j 'O')
      else tryBlockCols i rest ((b.set i j 'X').set i j ' ')
    else tryBlockCols i rest b

/-- Outer loop of Medium's "try to block". -/
def tryBlockRows : List (Fin 3) → Board → Ctl
  | [], b => Ctl.next b
  | i :: rest, b =>
    match tryBlockCols i range3 b with
    | Ctl.done b1 => Ctl.done b1
    | Ctl.next b1 => tryBlockRows rest b1

/-- The constant vector `corners`. -/
def corners : List (Fin 3 × Fin 3) := [(0, 0), (0, 2), (2, 0), (2, 2)]

/-- The vector `availableCorners`. -/
def availableCorners (b : Board) : List (Fin 3 × Fin 3) :=
  corners.filter (fun p => b.get p.1 p.2 == ' ')

/-- The Medium branch of `computerMove`. -/
def computerMoveMedium (b : Board) (r : Nat) : Board :=
  match tryWinRows range3 b with
  | Ctl.done b1 => b1
  | Ctl.next b1 =>
    match tryBlockRows range3 b1 with
    | Ctl.done b2 => b2
    | Ctl.next b2 =>
      if b2.get 1 1 == ' ' then b2.set 1 1 'O'
      else if availableCorners b2 ≠ [] then placeRandom b2 (availableCorners b2) r
      else placeRandom b2 (emptyCells b2) r

/-- State of the root loop of the Hard branch. `best` is `none` while
`bestRow` and `bestCol` are both `-1`, and `some (bestRow, bestCol)` after. -/
structure HardState where
  board : Board
  bestScore : Int
  best : Option (Fin 3 × Fin 3)

/-- Inner loop of the Hard branch; `search` is the call
`minimax(board, 0, false)`. -/
def hardCols (search : Board → Option (Int × Board)) (i : Fin 3) :
    List (Fin 3) → HardState → Option HardState
  | [], st => some st
  | j :: rest, st =>
    if st.board.get i j == ' ' then
      match search (st.board.set i j 'O') with
      | none => none
      | some (score, b1) =>
        if score > st.bestScore then hardCols search i rest ⟨b1.set i j ' ', score, some (i, j)⟩
        else hardCols search i rest ⟨b1.set i j ' ', st.bestScore, st.best⟩
    else hardCols search i rest st

/-- Outer loop of the Hard branch. -/
def hardRows (search : Board → Option (Int × Board)) :
    List (Fin 3) → HardState → Option HardState
  | [], st => some st
  | i :: rest, st =>
    match hardCols search i range3 st with
    | none => none
    | some st1 => hardRows search rest st1

/-- The Hard branch of `computerMove` around a given search function. -/
def computerMoveHardWith (search : Board → Option (Int × Board)) (b : Board) : Option Board :=
  match hardRows search range3 ⟨b, -1000, none⟩ with
  | none => none
  | some st =>
    match st.best with
    | some (i, j) => some (st.board.set i j 'O')
    | none => some st.board

/-- The Hard branch of `computerMove`. -/
def computerMoveHard (b : Board) : Option Board :=
  computerMoveHardWith (fun b1 => minimax b1 0 false (-1000) 1000) b

/-- The function `computerMove(board, difficulty)`; `r` is the value the call of `rand()`
returns, if one is made. The result is the board after the call. -/
def computerMove (b : Board) (difficulty : DifficultyLevel) (r : Nat) : Option Board :=
  match difficulty with
  | DifficultyLevel.EASY => some (placeRandom b (emptyCells b) r)
  | DifficultyLevel.MEDIUM => some (computerMoveMedium b r)
  | DifficultyLevel.HARD => computerMoveHard b

/-- The Hard branch with the unpruned search in place of `minimax`. -/
def computerMoveHardPlain (b : Board) : Option Board :=
  computerMoveHardWith (fun b1 => (minimaxPlain b1 0 false).map (fun s => (s, b1))) b

/-- The board `[[X,X,_],[O,O,_],[_,_,_]]`. -/
def scenarioBoard : Board := ⟨'X', 'X', ' ', 'O', 'O', ' ', ' ', ' ', ' '⟩

/-- A full board with no line: `[[X,O,X],[X,O,O],[O,X,X]]`. -/
def drawBoard : Board := ⟨'X', 'O', 'X', 'X', 'O', 'O', 'O', 'X', 'X'⟩

/-- A board where `'X'` threatens `(0, 2)` and `'O'` has no winning move:
`[[X,X,_],[O,_,_],[_,X,O]]`. -/
def blockBoard : Board := ⟨'X', 'X', ' ', 'O', ' ', ' ', ' ', 'X', 'O'⟩

/-- A board with one mark, in a corner: `[[X,_,_],[_,_,_],[_,_,_]]`. -/
def cornerBoard : Board := ⟨'X', ' ', ' ', ' ', ' ', ' ', ' ', ' ', ' '⟩

/-- A board won by `'O'`: `[[X,X,_],[O,O,O],[_,_,X]]`. -/
def oWonBoard : Board := ⟨'X', 'X', ' ', 'O', 'O', 'O', ' ', ' ', 'X'⟩

/-- A board won by `'X'`: `[[X,X,X],[O,O,_],[_,_,_]]`. -/
def xWonBoard : Board := ⟨'X', 'X', 'X', 'O', 'O', ' ', ' ', ' ', ' '⟩

/-! ## Alpha-beta search that stops at the first cutoff

The reference for the pruning rule "stop exploring the siblings as soon as
`beta <= alpha`": the search of `minimax` with each `break` leaving both loops
of its node, so that the node returns the running best score at once.
-/

/-- Inner loop of the maximizing branch of the reference search. The flag of
the result tells whether the cutoff was reached. -/
def cutMaxCols (call : Board → Int → Int → Option Int) (b : Board) (beta : Int) (i : Fin 3) :
    List (Fin 3) → Int → Int → Option (Int × Int × Bool)
  | [], best, alpha => some (best, alpha, false)
  | j :: rest, best, alpha =>
    if b.get i j == ' ' then
      match call (b.set i j 'O') alpha beta with
      | none => none
      | some score =>
        if beta ≤ max alpha (max score best) then
          some (max score best, max alpha (max score best), true)
        else cutMaxCols call b beta i rest (max score best) (max alpha (max score best))
    else cutMaxCols call b beta i rest best alpha

/-- Outer loop of the maximizing branch of the reference search: no further
row is visited after a cutoff. -/
def cutMaxRows (call : Board → Int → Int → Option Int) (b : Board) (beta : Int) :
    List (Fin 3) → Int → Int → Option Int
  | [], best, _ => some best
  | i :: rest, best, alpha =>
    match cutMaxCols call b beta i range3 best alpha with
    | none => none
    | some (best1, alpha1, cut) =>
      if cut then some best1 else cutMaxRows call b beta rest best1 alpha1

/-- Inner loop of the minimizing branch of the reference search. -/
def cutMinCols (call : Board → Int → Int → Option Int) (b : Board) (alpha : Int) (i : Fin 3) :
    List (Fin 3) → Int → Int → Option (Int × Int × Bool)
  | [], best, beta => some (best, beta, false)
  | j :: rest, best, beta =>
    if b.get i j == ' ' then
      match call (b.set i j 'X') alpha beta with
      | none => none
      | some score =>
        if min beta (min score best) ≤ alpha then
          some (min score best, min beta (min score best), true)
        else cutMinCols call b alpha i rest (min score best) (min beta (min score best))
    else cutMinCols call b alpha i rest best beta

/-- Outer loop of the minimizing branch of the reference search. -/
def cutMinRows (call : Board → Int → Int → Option Int) (b : Board) (alpha : Int) :
    List (Fin 3) → Int → Int → Option Int
  | [], best, _ => some best
  | i :: rest, best, beta =>
    match cutMinCols call b alpha i range3 best beta with
    | none => none
    | some (best1, beta1, cut) =>
      if cut then some best1 else cutMinRows call b alpha rest best1 beta1

/-- The reference search with at most `fuel` nested calls. -/
def minimaxCutFuel : Nat → Board → Int → Bool → Int → Int → Option Int
  | fuel, b, depth, isMaximizing, alpha, beta =>
    if checkWin b 'O' then some (wrapInt (10 - depth))
    else if checkWin b 'X' then some (wrapInt (depth - 10))
    else if isBoardFull b then some 0
    else
      match fuel with
      | 0 => none
      | fuel + 1 =>
        if isMaximizing then
          cutMaxRows (fun b1 a1 b2 => minimaxCutFuel fuel b1 (wrapInt (depth + 1)) false a1 b2) b beta
            range3 (-1000) alpha
        else
          cutMinRows (fun b1 a1 b2 => minimaxCutFuel fuel b1 (wrapInt (depth + 1)) true a1 b2) b alpha
            range3 1000 beta

/-- The reference search: alpha-beta that returns the running best score at
the first cutoff. -/
def minimaxCut (b : Board) (depth : Int) (isMaximizing : Bool) (alpha beta : Int) : Option Int :=
  minimaxCutFuel 9 b depth isMaximizing alpha beta

/-- A position met in the search of the Hard branch on
`[[_,_,_],[_,X,O],[O,X,X]]`, after the candidate `(0, 0)` and the reply
`(0, 2)`: `[[O,_,X],[_,X,O],[O,X,X]]`, `'O'` to move. -/
def cutoffBoard : Board := ⟨'O', ' ', 'X', ' ', 'X', 'O', 'O', 'X', 'X'⟩

/-! ## A round of `playGame` -/

/-- The variables of the loop `while (!roundOver)` of `playGame`: the board,
`playerTurn` (`true` when player 1, who plays `'X'`, is to move) and
`roundOver`. -/
structure Round where
  board : Board
  playerTurn : Bool
  roundOver : Bool

/-- The round after a move by the player of `symbol` that left board `b1`:
the round is over when that player has a line or, failing that, the board is
full; `nextTurn` is the negated `playerTurn`. -/
def roundAfter (b1 : Board) (symbol : Char) (nextTurn : Bool) : Round :=
  ⟨b1, nextTurn, checkWin b1 symbol || isBoardFull b1⟩

/-- The start of a round: the board after `resetBoard`, player 1 to move. -/
def roundStart : Round := ⟨emptyBoard, true, false⟩

/-- One pass of the loop of `playGame` with two human players: the player to
move enters a position that `getPlayerMove` accepts (`i`, `j` in `0..2`) and
for which `makeMove` returns `true`. -/
inductive PlayStep : Round → Round → Prop
  | moveX (s : Round) (i j : Fin 3) (b1 : Board) :
      s.roundOver = false → s.playerTurn = true →
      makeMove s.board (i.val : Int) (j.val : Int) 'X' = some (true, b1) →
      PlayStep s (roundAfter b1 'X' false)
  | moveO (s : Round) (i j : Fin 3) (b1 : Board) :
      s.roundOver = false → s.playerTurn = false →
      makeMove s.board (i.val : Int) (j.val : Int) 'O' = some (true, b1) →
      PlayStep s (roundAfter b1 'O' true)

/-- One pass of the loop of `playGame` against the computer at difficulty
Hard: player 1 moves as a human does, player 2's move is
`computerMove(board, HARD)`. -/
inductive HardStep : Round → Round → Prop
  | player (s s1 : Round) : s.playerTurn = true → PlayStep s s1 → HardStep s s1
  | computer (s : Round) (r : Nat) (b1 : Board) :
      s.roundOver = false → s.playerTurn = false →
      computerMove s.board DifficultyLevel.HARD r = some b1 →
      HardStep s (roundAfter b1 'O' true)

/-- Player 1 can force a complete line of `'X'` from round state `s`: the
line is there, or player 1 is to move and has a move after which it can be
forced, or player 2 is to move, can move, and every move leads to a state
from which it can be forced. -/
inductive XForces : Round → Prop
  | won (s : Round) : checkWin s.board 'X' = true → XForces s
  | playerMove (s s1 : Round) : s.playerTurn = true → PlayStep s s1 → XForces s1 → XForces s
  | opponentMove (s : Round) : s.playerTurn = false → (∃ s1, PlayStep s s1) →
      (∀ s1, PlayStep s s1 → XForces s1) → XForces s

/-- A position late in a round, `'O'` to move:
`[[X,O,X],[X,O,_],[O,X,_]]`. -/
def lateBoard : Board := ⟨'X', 'O', 'X', 'X', 'O', ' ', 'O', 'X', ' '⟩

/-! ## A decision procedure for forced wins -/

/-- What a cell holds, as far as the game goes. -/
inductive Mark where
  | blank
  | x
  | o
  | other
deriving DecidableEq, Repr

/-- The mark a `char` of the board stands for. -/
def Mark.ofChar (c : Char) : Mark :=
  if c == ' ' then Mark.blank
  else if c == 'X' then Mark.x
  else if c == 'O' then Mark.o
  else Mark.other

def Mark.isBlank : Mark → Bool
  | Mark.blank => true
  | _ => false

def Mark.isX : Mark → Bool
  | Mark.x => true
  | _ => false

def Mark.isO : Mark → Bool
  | Mark.o => true
  | _ => false

/-- A board of marks, row by row. -/
structure Grid where
  m0 : Mark
  m1 : Mark
  m2 : Mark
  m3 : Mark
  m4 : Mark
  m5 : Mark
  m6 : Mark
  m7 : Mark
  m8 : Mark

/-- The marks of a board. -/
def Grid.ofBoard (b : Board) : Grid :=
  ⟨Mark.ofChar b.c0, Mark.ofChar b.c1, Mark.ofChar b.c2, Mark.ofChar b.c3, Mark.ofChar b.c4,
    Mark.ofChar b.c5, Mark.ofChar b.c6, Mark.ofChar b.c7, Mark.ofChar b.c8⟩

/-- Some line has all three marks passing the test `f`. -/
def Grid.wins (g : Grid) (f : Mark → Bool) : Bool :=
  (f g.m0 && f g.m1 && f g.m2) || (f g.m3 && f g.m4 && f g.m5) || (f g.m6 && f g.m7 && f g.m8) ||
  (f g.m0 && f g.m3 && f g.m6) || (f g.m1 && f g.m4 && f g.m7) || (f g.m2 && f g.m5 && f g.m8) ||
  (f g.m0 && f g.m4 && f g.m8) || (f g.m2 && f g.m4 && f g.m6)

/-- No mark is blank. -/
def Grid.full (g : Grid) : Bool :=
  !(g.m0.isBlank || g.m1.isBlank || g.m2.isBlank || g.m3.isBlank || g.m4.isBlank ||
    g.m5.isBlank || g.m6.isBlank || g.m7.isBlank || g.m8.isBlank)

/-- For each cell, centre first, then corners, then edges: whether it is blank,
and the grid with mark `s` written there. -/
def Grid.moves (g : Grid) (s : Mark) : List (Bool × Grid) :=
  [(g.m4.isBlank, { g with m4 := s }), (g.m0.isBlank, { g with m0 := s }),
    (g.m2.isBlank, { g with m2 := s }), (g.m6.isBlank, { g with m6 := s }),
    (g.m8.isBlank, { g with m8 := s }), (g.m1.isBlank, { g with m1 := s }),
    (g.m3.isBlank, { g with m3 := s }), (g.m5.isBlank, { g with m5 := s }),
    (g.m7.isBlank, { g with m7 := s })]

/-- Search of depth at most `n` for a forced line of `'X'` from the round state
with marks `g`, `playerTurn = turn` and `roundOver = over`: `true` whenever
`XForces` holds of that state and `n` is at least the number of blank cells. -/
def xForcesFast : Nat → Grid → Bool → Bool → Bool
  | n, g, turn, over =>
    g.wins Mark.isX ||
      match n with
      | 0 => false
      | n + 1 =>
        !over &&
          if turn then
            (g.moves Mark.x).any fun q =>
              q.1 && xForcesFast n q.2 false (q.2.wins Mark.isX || q.2.full)
          else
            (g.moves Mark.o).all fun q =>
              !q.1 || xForcesFast n q.2 true (q.2.wins Mark.isO || q.2.full)

/-! ## Two Hard players

The program has one computer player, which plays `'O'`. A Hard player of `'X'`
is the same policy with the roles exchanged: the marks `'X'` and `'O'` are
swapped on the board, `computerMove(board, HARD)` is run, and the marks are
swapped back.
-/

/-- Exchange of the two marks: `'X'` for `'O'` and `'O'` for `'X'`. -/
def swapChar (c : Char) : Char :=
  if c == 'X' then 'O' else if c == 'O' then 'X' else c

/-- The board with the two marks exchanged. -/
def swapBoard (b : Board) : Board :=
  ⟨swapChar b.c0, swapChar b.c1, swapChar b.c2, swapChar b.c3, swapChar b.c4, swapChar b.c5,
    swapChar b.c6, swapChar b.c7, swapChar b.c8⟩

/-- The round seen with the roles exchanged. -/
def Round.swap (s : Round) : Round := ⟨swapBoard s.board, !s.playerTurn, s.roundOver⟩

/-- The move of a Hard player of `'X'`: `computerMove(board, HARD)` with the
roles of `'X'` and `'O'` exchanged. -/
def hardAsX (b : Board) (r : Nat) : Option Board :=
  (computerMove (swapBoard b) DifficultyLevel.HARD r).map swapBoard

/-- One pass of the loop `while (!roundOver)` of `playGame` with a Hard player
on each side; a round that is over stays as it is. `r` is the value `rand()`
would return. -/
def selfPlayStep (r : Nat) (s : Round) : Option Round :=
  if s.roundOver then some s
  else if s.playerTurn then (hardAsX s.board r).map (fun b1 => roundAfter b1 'X' false)
  else (computerMove s.board DifficultyLevel.HARD r).map (fun b1 => roundAfter b1 'O' true)

/-- The round after at most `n` passes of the loop with a Hard player on each
side; `draws k` is the value of `rand()` available when `k` passes remain. -/
def selfPlay (draws : Nat → Nat) : Nat → Round → Option Round
  | 0, s => some s
  | n + 1, s =>
    match selfPlayStep (draws n) s with
    | none => none
    | some s1 => selfPlay draws n s1

/-! ## Predicates used by the proofs -/

/-- Invariant of a round between two Hard players: neither side can force a
line, a round that is not over has an empty cell, and a round that is over has
a line or a full board. -/
def SelfInv (s : Round) : Prop :=
  ¬ XForces s ∧ ¬ XForces s.swap ∧ (s.roundOver = false → isBoardFull s.board = false) ∧
    (s.roundOver = true →
      checkWin s.board 'X' = true ∨ checkWin s.board 'O' = true ∨ isBoardFull s.board = true)


/-- What a result `r` of the pruned search with window `(α, β)` says about the
exact score `t`: at or below `α` the exact score is at most `α`, at or above
`β` it is at least `β`, and strictly inside the window the two agree. -/
def Good (α β r t : Int) : Prop :=
  (r ≤ α → t ≤ α) ∧ (β ≤ r → β ≤ t) ∧ (α < r → r < β → r = t)

/-- Invariant of the maximizing loops for entry window `(α0, β)`: `best` and
`alpha` are the loop variables, `T` the running maximum of the exact scores. -/
def MaxInv (α0 β best alpha T : Int) : Prop :=
  α0 ≤ alpha ∧ alpha ≤ max α0 best ∧ (β ≤ best → β ≤ T) ∧
    (alpha < β → (best ≤ α0 → T ≤ α0) ∧ (α0 < best → best < β → best = T)) ∧
    (β ≤ alpha → β ≤ best)

/-- Invariant of the minimizing loops for entry window `(α, β0)`. -/
def MinInv (α β0 best beta T : Int) : Prop :=
  beta ≤ β0 ∧ min β0 best ≤ beta ∧ (best ≤ α → T ≤ α) ∧
    (α < beta → (β0 ≤ best → β0 ≤ T) ∧ (best < β0 → α < best → best = T)) ∧
    (beta ≤ α → best ≤ α)

/-- The recursive calls made by a loop on board `b` placing `sym`: each one
returns, restores its board, and its result is `Good` for the window it got. -/
def CallsOk (call : Board → Int → Int → Option (Int × Board)) (pcall : Board → Option Int)
    (b : Board) (sym : Char) : Prop :=
  ∀ i j, b.get i j = ' ' → ∀ a β, ∃ r t,
    call (b.set i j sym) a β = some (r, b.set i j sym) ∧ pcall (b.set i j sym) = some t ∧
      (a < β → Good a β r t)

/-- The nine cells in the order the nested loops `for i … for j …` visit them. -/
def allCells : List (Fin 3 × Fin 3) :=
  [(0, 0), (0, 1), (0, 2), (1, 0), (1, 1), (1, 2), (2, 0), (2, 1), (2, 2)]

/-- The cells of the rows `rows`, row by row. -/
def cellsOf : List (Fin 3) → List (Fin 3 × Fin 3)
  | [] => []
  | i :: rest => range3.map (Prod.mk i) ++ cellsOf rest

/-- Cell `p` comes before cell `q` in row-major order. -/
def cellBefore (p q : Fin 3 × Fin 3) : Prop := p.1 < q.1 ∨ (p.1 = q.1 ∧ p.2 < q.2)

instance (p q : Fin 3 × Fin 3) : Decidable (cellBefore p q) := by
  unfold cellBefore
  infer_instance

/-- The root loop of the Hard branch as one loop over a list of cells. -/
def hardCells (search : Board → Option (Int × Board)) :
    List (Fin 3 × Fin 3) → HardState → Option HardState
  | [], st => some st
  | p :: rest, st =>
    if st.board.get p.1 p.2 == ' ' then
      match search (st.board.set p.1 p.2 'O') with
      | none => none
      | some (score, b1) =>
        if score > st.bestScore then
          hardCells search rest ⟨b1.set p.1 p.2 ' ', score, some (p.1, p.2)⟩
        else hardCells search rest ⟨b1.set p.1 p.2 ' ', st.bestScore, st.best⟩
    else hardCells search rest st

/-- The score the Hard branch gives the empty cell `p` of `b`: the unpruned
score of the board with `'O'` at `p`, minimizing side to move, depth `0`. -/
def rootScore (b : Board) (p : Fin 3 × Fin 3) : Int :=
  (minimaxPlain (b.set p.1 p.2 'O') 0 false).getD 0

/-- The two probing loops of the Medium branch as one loop over a list of
cells: `symbol` is placed on each empty cell in turn; if that completes a line
for `symbol` the cell gets `'O'` and the function returns, otherwise the cell
is emptied again. -/
def probeCells (symbol : Char) : List (Fin 3 × Fin 3) → Board → Ctl
  | [], b => Ctl.next b
  | p :: rest, b =>
    if b.get p.1 p.2 == ' ' then
      if checkWin (b.set p.1 p.2 symbol) symbol then
        Ctl.done ((b.set p.1 p.2 symbol).set p.1 p.2 'O')
      else probeCells symbol rest ((b.set p.1 p.2 symbol).set p.1 p.2 ' ')
    else probeCells symbol rest b

/-! ## Board lemmas -/

theorem wrapInt_small (x : Int) (h1 : -2147483648 ≤ x) (h2 : x ≤ 2147483647) : wrapInt x = x := by
  unfold wrapInt
  omega


theorem get_set_same (b : Board) (i j : Fin 3) (c : Char) : (b.set i j c).get i j = c := by
  fin_cases i <;> fin_cases j <;> rfl

theorem get_set_ne (b : Board) (i j i1 j1 : Fin 3) (c : Char) (h : ¬ (i1 = i ∧ j1 = j)) :
    (b.set i j c).get i1 j1 = b.get i1 j1 := by
  fin_cases i <;> fin_cases j <;> fin_cases i1 <;> fin_cases j1 <;> first | rfl | simp at h

theorem set_set (b : Board) (i j : Fin 3) (c d : Char) : (b.set i j c).set i j d = b.set i j d := by
  fin_cases i <;> fin_cases j <;> rfl

theorem set_get_self (b : Board) (i j : Fin 3) : b.set i j (b.get i j) = b := by
  fin_cases i <;> fin_cases j <;> rfl

theorem set_undo (b : Board) (i j : Fin 3) (c : Char) (h : b.get i j = ' ') :
    (b.set i j c).set i j ' ' = b := by
  rw [set_set, ← h, set_get_self]

theorem board_ext (a b : Board) (h : ∀ i j, a.get i j = b.get i j) : a = b := by
  cases a; cases b
  have h00 := h 0 0; have h01 := h 0 1; have h02 := h 0 2
  have h10 := h 1 0; have h11 := h 1 1; have h12 := h 1 2
  have h20 := h 2 0; have h21 := h 2 1; have h22 := h 2 2
  simp only [Board.get, idx, Board.cell] at h00 h01 h02 h10 h11 h12 h20 h21 h22
  simp_all

theorem emptyCount_set (b : Board) (i j : Fin 3) (c : Char) (h : b.get i j = ' ')
    (hc : c ≠ ' ') : emptyCount (b.set i j c) + 1 = emptyCount b := by
  have hc1 : (c == ' ') = false := by simpa using hc
  cases b
  fin_cases i <;> fin_cases j <;>
    (simp only [Board.get, idx, Board.cell] at h
     subst h
     simp only [emptyCount, Board.set, Board.setCell, idx, hc1, beq_self_eq_true, if_true]
     try simp only [Bool.false_eq_true, if_false]
     try omega)

theorem isBoardFull_of_emptyCount (b : Board) (h : emptyCount b = 0) : isBoardFull b = true := by
  have key : ∀ c : Char, (if (c == ' ') = true then (1 : Nat) else 0) = 0 ↔ (c == ' ') = false := by
    intro c
    cases (c == ' ') <;> simp
  cases b
  simp only [emptyCount, Nat.add_eq_zero_iff, key] at h
  obtain ⟨⟨⟨⟨⟨⟨⟨⟨h0, h1⟩, h2⟩, h3⟩, h4⟩, h5⟩, h6⟩, h7⟩, h8⟩ := h
  simp only [isBoardFull, isBoardFullRows, isBoardFullCols, range3, Board.get, idx, Board.cell]
  simp [h0, h1, h2, h3, h4, h5, h6, h7, h8]

/-! ## Pruned against unpruned search -/

theorem MaxInv_init (α0 β : Int) (hw : α0 < β) : MaxInv α0 β (-1000) α0 (-1000) := by
  unfold MaxInv
  omega

theorem MinInv_init (α β0 : Int) (hw : α < β0) : MinInv α β0 1000 β0 1000 := by
  unfold MinInv
  omega

theorem MaxInv_step (α0 β best alpha T r t : Int) (hinv : MaxInv α0 β best alpha T)
    (hgood : alpha < β → Good alpha β r t) :
    MaxInv α0 β (max r best) (max alpha (max r best)) (max t T) := by
  unfold MaxInv Good at *
  omega

theorem MinInv_step (α β0 best beta T r t : Int) (hinv : MinInv α β0 best beta T)
    (hgood : α < beta → Good α beta r t) :
    MinInv α β0 (min r best) (min beta (min r best)) (min t T) := by
  unfold MinInv Good at *
  omega

theorem MaxInv_cut (α0 β best alpha T T1 : Int) (hinv : MaxInv α0 β best alpha T)
    (hcut : β ≤ alpha) (hle : T ≤ T1) : MaxInv α0 β best alpha T1 := by
  unfold MaxInv at *
  omega

theorem MinInv_cut (α β0 best beta T T1 : Int) (hinv : MinInv α β0 best beta T)
    (hcut : beta ≤ α) (hle : T1 ≤ T) : MinInv α β0 best beta T1 := by
  unfold MinInv at *
  omega

theorem MaxInv_good (α0 β best alpha T : Int) (hw : α0 < β) (hinv : MaxInv α0 β best alpha T) :
    Good α0 β best T := by
  unfold MaxInv Good at *
  omega

theorem MinInv_good (α β0 best beta T : Int) (hw : α < β0) (hinv : MinInv α β0 best beta T) :
    Good α β0 best T := by
  unfold MinInv Good at *
  omega

theorem plainMaxCols_total (call : Board → Int → Int → Option (Int × Board))
    (pcall : Board → Option Int) (b : Board) (H : CallsOk call pcall b 'O') (i : Fin 3) :
    ∀ (js : List (Fin 3)) (T : Int), ∃ T1, plainMaxCols pcall b i js T = some T1 ∧ T ≤ T1 := by
  intro js
  induction js with
  | nil => intro T; exact ⟨T, rfl, le_refl _⟩
  | cons j rest ih =>
    intro T
    by_cases hg : b.get i j = ' '
    · obtain ⟨r, t, -, hp, -⟩ := H i j hg 0 0
      obtain ⟨T1, h1, h2⟩ := ih (max t T)
      refine ⟨T1, ?_, by omega⟩
      simp only [plainMaxCols, hg, beq_self_eq_true, if_true, hp, h1]
    · obtain ⟨T1, h1, h2⟩ := ih T
      refine ⟨T1, ?_, h2⟩
      have hg1 : (b.get i j == ' ') = false := by simpa using hg
      simp only [plainMaxCols, hg1, Bool.false_eq_true, if_false, h1]

theorem plainMinCols_total (call : Board → Int → Int → Option (Int × Board))
    (pcall : Board → Option Int) (b : Board) (H : CallsOk call pcall b 'X') (i : Fin 3) :
    ∀ (js : List (Fin 3)) (T : Int), ∃ T1, plainMinCols pcall b i js T = some T1 ∧ T1 ≤ T := by
  intro js
  induction js with
  | nil => intro T; exact ⟨T, rfl, le_refl _⟩
  | cons j rest ih =>
    intro T
    by_cases hg : b.get i j = ' '
    · obtain ⟨r, t, -, hp, -⟩ := H i j hg 0 0
      obtain ⟨T1, h1, h2⟩ := ih (min t T)
      refine ⟨T1, ?_, by omega⟩
      simp only [plainMinCols, hg, beq_self_eq_true, if_true, hp, h1]
    · obtain ⟨T1, h1, h2⟩ := ih T
      refine ⟨T1, ?_, h2⟩
      have hg1 : (b.get i j == ' ') = false := by simpa using hg
      simp only [plainMinCols, hg1, Bool.false_eq_true, if_false, h1]

theorem maxCols_inv (call : Board → Int → Int → Option (Int × Board))
    (pcall : Board → Option Int) (b : Board) (H : CallsOk call pcall b 'O') (α0 β : Int)
    (i : Fin 3) :
    ∀ (js : List (Fin 3)) (st : LoopState) (T : Int), st.board = b →
      ∃ st1 T1, maxCols call β i js st = some st1 ∧ plainMaxCols pcall b i js T = some T1 ∧
        st1.board = b ∧ T ≤ T1 ∧
        (MaxInv α0 β st.bestScore st.bound T → MaxInv α0 β st1.bestScore st1.bound T1) := by
  intro js
  induction js with
  | nil => intro st T hb; exact ⟨st, T, rfl, rfl, hb, le_refl _, fun h => h⟩
  | cons j rest ih =>
    intro st T hb
    by_cases hg : b.get i j = ' '
    · obtain ⟨r, t, hc, hp, hgood⟩ := H i j hg st.bound β
      by_cases hcut : β ≤ max st.bound (max r st.bestScore)
      · obtain ⟨T1, h1, h2⟩ := plainMaxCols_total call pcall b H i rest (max t T)
        refine ⟨⟨b, max r st.bestScore, max st.bound (max r st.bestScore)⟩, T1, ?_, ?_, rfl,
          by omega, fun hinv => ?_⟩
        · simp only [maxCols, hb, hg, beq_self_eq_true, if_true, hc, hcut, set_undo b i j 'O' hg]
        · simp only [plainMaxCols, hg, beq_self_eq_true, if_true, hp, h1]
        · exact MaxInv_cut _ _ _ _ _ _ (MaxInv_step _ _ _ _ _ _ _ hinv hgood) hcut h2
      · obtain ⟨st1, T1, h1, h2, h3, h4, h5⟩ :=
          ih ⟨b, max r st.bestScore, max st.bound (max r st.bestScore)⟩ (max t T) rfl
        refine ⟨st1, T1, ?_, ?_, h3, by omega, fun hinv => h5 (MaxInv_step _ _ _ _ _ _ _ hinv hgood)⟩
        · simp only [maxCols, hb, hg, beq_self_eq_true, if_true, hc, hcut, if_false,
            set_undo b i j 'O' hg, h1]
        · simp only [plainMaxCols, hg, beq_self_eq_true, if_true, hp, h2]
    · obtain ⟨st1, T1, h1, h2, h3, h4, h5⟩ := ih st T hb
      have hg1 : (b.get i j == ' ') = false := by simpa using hg
      refine ⟨st1, T1, ?_, ?_, h3, h4, h5⟩
      · simp only [maxCols, hb, hg1, Bool.false_eq_true, if_false, h1]
      · simp only [plainMaxCols, hg1, Bool.false_eq_true, if_false, h2]

theorem minCols_inv (call : Board → Int → Int → Option (Int × Board))
    (pcall : Board → Option Int) (b : Board) (H : CallsOk call pcall b 'X') (α β0 : Int)
    (i : Fin 3) :
    ∀ (js : List (Fin 3)) (st : LoopState) (T : Int), st.board = b →
      ∃ st1 T1, minCols call α i js st = some st1 ∧ plainMinCols pcall b i js T = some T1 ∧
        st1.board = b ∧ T1 ≤ T ∧
        (MinInv α β0 st.bestScore st.bound T → MinInv α β0 st1.bestScore st1.bound T1) := by
  intro js
  induction js with
  | nil => intro st T hb; exact ⟨st, T, rfl, rfl, hb, le_refl _, fun h => h⟩
  | cons j rest ih =>
    intro st T hb
    by_cases hg : b.get i j = ' '
    · obtain ⟨r, t, hc, hp, hgood⟩ := H i j hg α st.bound
      by_cases hcut : min st.bound (min r st.bestScore) ≤ α
      · obtain ⟨T1, h1, h2⟩ := plainMinCols_total call pcall b H i rest (min t T)
        refine ⟨⟨b, min r st.bestScore, min st.bound (min r st.bestScore)⟩, T1, ?_, ?_, rfl,
          by omega, fun hinv => ?_⟩
        · simp only [minCols, hb, hg, beq_self_eq_true, if_true, hc, hcut, set_undo b i j 'X' hg]
        · simp only [plainMinCols, hg, beq_self_eq_true, if_true, hp, h1]
        · exact MinInv_cut _ _ _ _ _ _ (MinInv_step _ _ _ _ _ _ _ hinv hgood) hcut h2
      · obtain ⟨st1, T1, h1, h2, h3, h4, h5⟩ :=
          ih ⟨b, min r st.bestScore, min st.bound (min r st.bestScore)⟩ (min t T) rfl
        refine ⟨st1, T1, ?_, ?_, h3, by omega, fun hinv => h5 (MinInv_step _ _ _ _ _ _ _ hinv hgood)⟩
        · simp only [minCols, hb, hg, beq_self_eq_true, if_true, hc, hcut, if_false,
            set_undo b i j 'X' hg, h1]
        · simp only [plainMinCols, hg, beq_self_eq_true, if_true, hp, h2]
    · obtain ⟨st1, T1, h1, h2, h3, h4, h5⟩ := ih st T hb
      have hg1 : (b.get i j == ' ') = false := by simpa using hg
      refine ⟨st1, T1, ?_, ?_, h3, h4, h5⟩
      · simp only [minCols, hb, hg1, Bool.false_eq_true, if_false, h1]
      · simp only [plainMinCols, hg1, Bool.false_eq_true, if_false, h2]

theorem maxRows_inv (call : Board → Int → Int → Option (Int × Board))
    (pcall : Board → Option Int) (b : Board) (H : CallsOk call pcall b 'O') (α0 β : Int) :
    ∀ (rows : List (Fin 3)) (st : LoopState) (T : Int), st.board = b →
      ∃ st1 T1, maxRows call β rows st = some st1 ∧ plainMaxRows pcall b rows T = some T1 ∧
        st1.board = b ∧ T ≤ T1 ∧
        (MaxInv α0 β st.bestScore st.bound T → MaxInv α0 β st1.bestScore st1.bound T1) := by
  intro rows
  induction rows with
  | nil => intro st T hb; exact ⟨st, T, rfl, rfl, hb, le_refl _, fun h => h⟩
  | cons i rest ih =>
    intro st T hb
    obtain ⟨st1, T1, h1, h2, h3, h4, h5⟩ := maxCols_inv call pcall b H α0 β i range3 st T hb
    obtain ⟨st2, T2, k1, k2, k3, k4, k5⟩ := ih st1 T1 h3
    refine ⟨st2, T2, ?_, ?_, k3, by omega, fun hinv => k5 (h5 hinv)⟩
    · simp only [maxRows, h1, k1]
    · simp only [plainMaxRows, h2, k2]

theorem minRows_inv (call : Board → Int → Int → Option (Int × Board))
    (pcall : Board → Option Int) (b : Board) (H : CallsOk call pcall b 'X') (α β0 : Int) :
    ∀ (rows : List (Fin 3)) (st : LoopState) (T : Int), st.board = b →
      ∃ st1 T1, minRows call α rows st = some st1 ∧ plainMinRows pcall b rows T = some T1 ∧
        st1.board = b ∧ T1 ≤ T ∧
        (MinInv α β0 st.bestScore st.bound T → MinInv α β0 st1.bestScore st1.bound T1) := by
  intro rows
  induction rows with
  | nil => intro st T hb; exact ⟨st, T, rfl, rfl, hb, le_refl _, fun h => h⟩
  | cons i rest ih =>
    intro st T hb
    obtain ⟨st1, T1, h1, h2, h3, h4, h5⟩ := minCols_inv call pcall b H α β0 i range3 st T hb
    obtain ⟨st2, T2, k1, k2, k3, k4, k5⟩ := ih st1 T1 h3
    refine ⟨st2, T2, ?_, ?_, k3, by omega, fun hinv => k5 (h5 hinv)⟩
    · simp only [minRows, h1, k1]
    · simp only [plainMinRows, h2, k2]

theorem minimaxFuel_winO (fuel : Nat) (b : Board) (depth : Int) (m : Bool) (α β : Int)
    (hO : checkWin b 'O' = true) : minimaxFuel fuel b depth m α β = some (wrapInt (10 - depth), b) := by
  unfold minimaxFuel
  simp only [hO, if_true]

theorem minimaxFuel_winX (fuel : Nat) (b : Board) (depth : Int) (m : Bool) (α β : Int)
    (hO : checkWin b 'O' = false) (hX : checkWin b 'X' = true) :
    minimaxFuel fuel b depth m α β = some (wrapInt (depth - 10), b) := by
  unfold minimaxFuel
  simp only [hO, hX, if_true, Bool.false_eq_true, if_false]

theorem minimaxFuel_full (fuel : Nat) (b : Board) (depth : Int) (m : Bool) (α β : Int)
    (hO : checkWin b 'O' = false) (hX : checkWin b 'X' = false) (hF : isBoardFull b = true) :
    minimaxFuel fuel b depth m α β = some (0, b) := by
  unfold minimaxFuel
  simp only [hO, hX, hF, if_true, Bool.false_eq_true, if_false]

theorem minimaxFuel_max (n : Nat) (b : Board) (depth : Int) (α β : Int)
    (hO : checkWin b 'O' = false) (hX : checkWin b 'X' = false) (hF : isBoardFull b = false) :
    minimaxFuel (n + 1) b depth true α β =
      (maxRows (fun b1 a1 b2 => minimaxFuel n b1 (wrapInt (depth + 1)) false a1 b2) β range3
        ⟨b, -1000, α⟩).map (fun st => (st.bestScore, st.board)) := by
  rw [minimaxFuel]
  simp only [hO, hX, hF, if_true, Bool.false_eq_true, if_false]
  cases maxRows (fun b1 a1 b2 => minimaxFuel n b1 (wrapInt (depth + 1)) false a1 b2) β range3
    ⟨b, -1000, α⟩ <;> rfl

theorem minimaxFuel_min (n : Nat) (b : Board) (depth : Int) (α β : Int)
    (hO : checkWin b 'O' = false) (hX : checkWin b 'X' = false) (hF : isBoardFull b = false) :
    minimaxFuel (n + 1) b depth false α β =
      (minRows (fun b1 a1 b2 => minimaxFuel n b1 (wrapInt (depth + 1)) true a1 b2) α range3
        ⟨b, 1000, β⟩).map (fun st => (st.bestScore, st.board)) := by
  rw [minimaxFuel]
  simp only [hO, hX, hF, if_true, Bool.false_eq_true, if_false]
  cases minRows (fun b1 a1 b2 => minimaxFuel n b1 (wrapInt (depth + 1)) true a1 b2) α range3
    ⟨b, 1000, β⟩ <;> rfl

theorem minimaxPlainFuel_winO (fuel : Nat) (b : Board) (depth : Int) (m : Bool)
    (hO : checkWin b 'O' = true) : minimaxPlainFuel fuel b depth m = some (wrapInt (10 - depth)) := by
  unfold minimaxPlainFuel
  simp only [hO, if_true]

theorem minimaxPlainFuel_winX (fuel : Nat) (b : Board) (depth : Int) (m : Bool)
    (hO : checkWin b 'O' = false) (hX : checkWin b 'X' = true) :
    minimaxPlainFuel fuel b depth m = some (wrapInt (depth - 10)) := by
  unfold minimaxPlainFuel
  simp only [hO, hX, if_true, Bool.false_eq_true, if_false]

theorem minimaxPlainFuel_full (fuel : Nat) (b : Board) (depth : Int) (m : Bool)
    (hO : checkWin b 'O' = false) (hX : checkWin b 'X' = false) (hF : isBoardFull b = true) :
    minimaxPlainFuel fuel b depth m = some 0 := by
  unfold minimaxPlainFuel
  simp only [hO, hX, hF, if_true, Bool.false_eq_true, if_false]

theorem minimaxPlainFuel_max (n : Nat) (b : Board) (depth : Int)
    (hO : checkWin b 'O' = false) (hX : checkWin b 'X' = false) (hF : isBoardFull b = false) :
    minimaxPlainFuel (n + 1) b depth true =
      plainMaxRows (fun b1 => minimaxPlainFuel n b1 (wrapInt (depth + 1)) false) b range3 (-1000) := by
  rw [minimaxPlainFuel]
  simp only [hO, hX, hF, if_true, Bool.false_eq_true, if_false]

theorem minimaxPlainFuel_min (n : Nat) (b : Board) (depth : Int)
    (hO : checkWin b 'O' = false) (hX : checkWin b 'X' = false) (hF : isBoardFull b = false) :
    minimaxPlainFuel (n + 1) b depth false =
      plainMinRows (fun b1 => minimaxPlainFuel n b1 (wrapInt (depth + 1)) true) b range3 1000 := by
  rw [minimaxPlainFuel]
  simp only [hO, hX, hF, if_true, Bool.false_eq_true, if_false]

theorem Good_refl (α β r : Int) : Good α β r r := ⟨fun h => h, fun h => h, fun _ _ => rfl⟩

/-- With enough fuel both searches return, the pruned one hands back the board
it was given, and its result is `Good` for its window. -/
theorem minimaxFuel_spec : ∀ (fuel : Nat) (b : Board) (depth : Int) (isMaximizing : Bool)
    (α β : Int), emptyCount b ≤ fuel →
    ∃ r t, minimaxFuel fuel b depth isMaximizing α β = some (r, b) ∧
      minimaxPlainFuel fuel b depth isMaximizing = some t ∧ (α < β → Good α β r t) := by
  intro fuel
  induction fuel with
  | zero =>
    intro b depth isMaximizing α β hle
    have hfull : isBoardFull b = true := isBoardFull_of_emptyCount b (by omega)
    cases hO : checkWin b 'O' with
    | true =>
      exact ⟨_, _, minimaxFuel_winO _ _ _ _ _ _ hO, minimaxPlainFuel_winO _ _ _ _ hO,
        fun _ => Good_refl _ _ _⟩
    | false =>
      cases hX : checkWin b 'X' with
      | true =>
        exact ⟨_, _, minimaxFuel_winX _ _ _ _ _ _ hO hX, minimaxPlainFuel_winX _ _ _ _ hO hX,
          fun _ => Good_refl _ _ _⟩
      | false =>
        exact ⟨_, _, minimaxFuel_full _ _ _ _ _ _ hO hX hfull,
          minimaxPlainFuel_full _ _ _ _ hO hX hfull, fun _ => Good_refl _ _ _⟩
  | succ n ih =>
    intro b depth isMaximizing α β hle
    cases hO : checkWin b 'O' with
    | true =>
      exact ⟨_, _, minimaxFuel_winO _ _ _ _ _ _ hO, minimaxPlainFuel_winO _ _ _ _ hO,
        fun _ => Good_refl _ _ _⟩
    | false =>
      cases hX : checkWin b 'X' with
      | true =>
        exact ⟨_, _, minimaxFuel_winX _ _ _ _ _ _ hO hX, minimaxPlainFuel_winX _ _ _ _ hO hX,
          fun _ => Good_refl _ _ _⟩
      | false =>
        cases hF : isBoardFull b with
        | true =>
          exact ⟨_, _, minimaxFuel_full _ _ _ _ _ _ hO hX hF,
            minimaxPlainFuel_full _ _ _ _ hO hX hF, fun _ => Good_refl _ _ _⟩
        | false =>
          cases isMaximizing with
          | true =>
            have H : CallsOk (fun b1 a1 b2 => minimaxFuel n b1 (wrapInt (depth + 1)) false a1 b2)
                (fun b1 => minimaxPlainFuel n b1 (wrapInt (depth + 1)) false) b 'O' := by
              intro i j hg a β1
              have hcnt := emptyCount_set b i j 'O' hg (by decide)
              exact ih (b.set i j 'O') (wrapInt (depth + 1)) false a β1 (by omega)
            obtain ⟨st1, T1, h1, h2, h3, -, h5⟩ :=
              maxRows_inv _ _ b H α β range3 ⟨b, -1000, α⟩ (-1000) rfl
            refine ⟨st1.bestScore, T1, ?_, ?_, fun hw => ?_⟩
            · rw [minimaxFuel_max n b depth α β hO hX hF, h1, ← h3]
              rfl
            · rw [minimaxPlainFuel_max n b depth hO hX hF, h2]
            · exact MaxInv_good _ _ _ _ _ hw (h5 (MaxInv_init α β hw))
          | false =>
            have H : CallsOk (fun b1 a1 b2 => minimaxFuel n b1 (wrapInt (depth + 1)) true a1 b2)
                (fun b1 => minimaxPlainFuel n b1 (wrapInt (depth + 1)) true) b 'X' := by
              intro i j hg a β1
              have hcnt := emptyCount_set b i j 'X' hg (by decide)
              exact ih (b.set i j 'X') (wrapInt (depth + 1)) true a β1 (by omega)
            obtain ⟨st1, T1, h1, h2, h3, -, h5⟩ :=
              minRows_inv _ _ b H α β range3 ⟨b, 1000, β⟩ 1000 rfl
            refine ⟨st1.bestScore, T1, ?_, ?_, fun hw => ?_⟩
            · rw [minimaxFuel_min n b depth α β hO hX hF, h1, ← h3]
              rfl
            · rw [minimaxPlainFuel_min n b depth hO hX hF, h2]
            · exact MinInv_good _ _ _ _ _ hw (h5 (MinInv_init α β hw))

/-! ## The unpruned score as a maximum / minimum over the empty cells -/

theorem mem_range3 (i : Fin 3) : i ∈ range3 := by
  fin_cases i <;> simp [range3]

theorem plainMaxCols_char (pcall : Board → Option Int) (b : Board) (i : Fin 3)
    (hT : ∀ j, b.get i j = ' ' → ∃ t, pcall (b.set i j 'O') = some t) :
    ∀ (js : List (Fin 3)) (T : Int), ∃ T1, plainMaxCols pcall b i js T = some T1 ∧ T ≤ T1 ∧
      (∀ j ∈ js, b.get i j = ' ' → ∀ t, pcall (b.set i j 'O') = some t → t ≤ T1) ∧
      (T1 = T ∨ ∃ j ∈ js, b.get i j = ' ' ∧ pcall (b.set i j 'O') = some T1) := by
  intro js
  induction js with
  | nil => intro T; exact ⟨T, rfl, le_refl _, by simp, Or.inl rfl⟩
  | cons j rest ih =>
    intro T
    by_cases hg : b.get i j = ' '
    · obtain ⟨t, hp⟩ := hT j hg
      obtain ⟨T1, h1, h2, h3, h4⟩ := ih (max t T)
      refine ⟨T1, ?_, by omega, ?_, ?_⟩
      · simp only [plainMaxCols, hg, beq_self_eq_true, if_true, hp, h1]
      · intro j1 hj1 hg1 t1 ht1
        rcases List.mem_cons.mp hj1 with rfl | hmem
        · rw [hp] at ht1
          cases ht1
          omega
        · exact h3 j1 hmem hg1 t1 ht1
      · rcases h4 with h4 | ⟨j1, hj1, hg1, hp1⟩
        · by_cases hle : t ≤ T
          · left; omega
          · right
            exact ⟨j, List.mem_cons_self _ _, hg, by rw [hp, h4]; congr 1; omega⟩
        · exact Or.inr ⟨j1, List.mem_cons_of_mem _ hj1, hg1, hp1⟩
    · obtain ⟨T1, h1, h2, h3, h4⟩ := ih T
      have hg1 : (b.get i j == ' ') = false := by simpa using hg
      refine ⟨T1, ?_, h2, ?_, ?_⟩
      · simp only [plainMaxCols, hg1, Bool.false_eq_true, if_false, h1]
      · intro j1 hj1 hg2 t1 ht1
        rcases List.mem_cons.mp hj1 with rfl | hmem
        · exact absurd hg2 hg
        · exact h3 j1 hmem hg2 t1 ht1
      · rcases h4 with h4 | ⟨j1, hj1, hg2, hp1⟩
        · exact Or.inl h4
        · exact Or.inr ⟨j1, List.mem_cons_of_mem _ hj1, hg2, hp1⟩

theorem plainMinCols_char (pcall : Board → Option Int) (b : Board) (i : Fin 3)
    (hT : ∀ j, b.get i j = ' ' → ∃ t, pcall (b.set i j 'X') = some t) :
    ∀ (js : List (Fin 3)) (T : Int), ∃ T1, plainMinCols pcall b i js T = some T1 ∧ T1 ≤ T ∧
      (∀ j ∈ js, b.get i j = ' ' → ∀ t, pcall (b.set i j 'X') = some t → T1 ≤ t) ∧
      (T1 = T ∨ ∃ j ∈ js, b.get i j = ' ' ∧ pcall (b.set i j 'X') = some T1) := by
  intro js
  induction js with
  | nil => intro T; exact ⟨T, rfl, le_refl _, by simp, Or.inl rfl⟩
  | cons j rest ih =>
    intro T
    by_cases hg : b.get i j = ' '
    · obtain ⟨t, hp⟩ := hT j hg
      obtain ⟨T1, h1, h2, h3, h4⟩ := ih (min t T)
      refine ⟨T1, ?_, by omega, ?_, ?_⟩
      · simp only [plainMinCols, hg, beq_self_eq_true, if_true, hp, h1]
      · intro j1 hj1 hg1 t1 ht1
        rcases List.mem_cons.mp hj1 with rfl | hmem
        · rw [hp] at ht1
          cases ht1
          omega
        · exact h3 j1 hmem hg1 t1 ht1
      · rcases h4 with h4 | ⟨j1, hj1, hg1, hp1⟩
        · by_cases hle : T ≤ t
          · left; omega
          · right
            exact ⟨j, List.mem_cons_self _ _, hg, by rw [hp, h4]; congr 1; omega⟩
        · exact Or.inr ⟨j1, List.mem_cons_of_mem _ hj1, hg1, hp1⟩
    · obtain ⟨T1, h1, h2, h3, h4⟩ := ih T
      have hg1 : (b.get i j == ' ') = false := by simpa using hg
      refine ⟨T1, ?_, h2, ?_, ?_⟩
      · simp only [plainMinCols, hg1, Bool.false_eq_true, if_false, h1]
      · intro j1 hj1 hg2 t1 ht1
        rcases List.mem_cons.mp hj1 with rfl | hmem
        · exact absurd hg2 hg
        · exact h3 j1 hmem hg2 t1 ht1
      · rcases h4 with h4 | ⟨j1, hj1, hg2, hp1⟩
        · exact Or.inl h4
        · exact Or.inr ⟨j1, List.mem_cons_of_mem _ hj1, hg2, hp1⟩

theorem plainMaxRows_char (pcall : Board → Option Int) (b : Board)
    (hT : ∀ i j, b.get i j = ' ' → ∃ t, pcall (b.set i j 'O') = some t) :
    ∀ (rows : List (Fin 3)) (T : Int), ∃ T1, plainMaxRows pcall b rows T = some T1 ∧ T ≤ T1 ∧
      (∀ i ∈ rows, ∀ j, b.get i j = ' ' → ∀ t, pcall (b.set i j 'O') = some t → t ≤ T1) ∧
      (T1 = T ∨ ∃ i j, b.get i j = ' ' ∧ pcall (b.set i j 'O') = some T1) := by
  intro rows
  induction rows with
  | nil => intro T; exact ⟨T, rfl, le_refl _, by simp, Or.inl rfl⟩
  | cons i rest ih =>
    intro T
    obtain ⟨T1, h1, h2, h3, h4⟩ := plainMaxCols_char pcall b i (hT i) range3 T
    obtain ⟨T2, k1, k2, k3, k4⟩ := ih T1
    refine ⟨T2, ?_, by omega, ?_, ?_⟩
    · simp only [plainMaxRows, h1, k1]
    · intro i1 hi1 j hg t ht
      rcases List.mem_cons.mp hi1 with rfl | hmem
      · have := h3 j (mem_range3 j) hg t ht
        omega
      · exact k3 i1 hmem j hg t ht
    · rcases k4 with k4 | ⟨i1, j1, hg, hp⟩
      · rcases h4 with h4 | ⟨j1, -, hg, hp⟩
        · left; omega
        · right
          exact ⟨i, j1, hg, by rw [hp, k4]⟩
      · exact Or.inr ⟨i1, j1, hg, hp⟩

theorem plainMinRows_char (pcall : Board → Option Int) (b : Board)
    (hT : ∀ i j, b.get i j = ' ' → ∃ t, pcall (b.set i j 'X') = some t) :
    ∀ (rows : List (Fin 3)) (T : Int), ∃ T1, plainMinRows pcall b rows T = some T1 ∧ T1 ≤ T ∧
      (∀ i ∈ rows, ∀ j, b.get i j = ' ' → ∀ t, pcall (b.set i j 'X') = some t → T1 ≤ t) ∧
      (T1 = T ∨ ∃ i j, b.get i j = ' ' ∧ pcall (b.set i j 'X') = some T1) := by
  intro rows
  induction rows with
  | nil => intro T; exact ⟨T, rfl, le_refl _, by simp, Or.inl rfl⟩
  | cons i rest ih =>
    intro T
    obtain ⟨T1, h1, h2, h3, h4⟩ := plainMinCols_char pcall b i (hT i) range3 T
    obtain ⟨T2, k1, k2, k3, k4⟩ := ih T1
    refine ⟨T2, ?_, by omega, ?_, ?_⟩
    · simp only [plainMinRows, h1, k1]
    · intro i1 hi1 j hg t ht
      rcases List.mem_cons.mp hi1 with rfl | hmem
      · have := h3 j (mem_range3 j) hg t ht
        omega
      · exact k3 i1 hmem j hg t ht
    · rcases k4 with k4 | ⟨i1, j1, hg, hp⟩
      · rcases h4 with h4 | ⟨j1, -, hg, hp⟩
        · left; omega
        · right
          exact ⟨i, j1, hg, by rw [hp, k4]⟩
      · exact Or.inr ⟨i1, j1, hg, hp⟩

theorem emptyCount_le (b : Board) : emptyCount b ≤ 9 := by
  unfold emptyCount
  have key : ∀ c : Char, (if (c == ' ') = true then (1 : Nat) else 0) ≤ 1 := by
    intro c
    split <;> omega
  have h0 := key b.c0; have h1 := key b.c1; have h2 := key b.c2
  have h3 := key b.c3; have h4 := key b.c4; have h5 := key b.c5
  have h6 := key b.c6; have h7 := key b.c7; have h8 := key b.c8
  omega

theorem isBoardFull_iff (b : Board) : isBoardFull b = true ↔ ∀ i j, b.get i j ≠ ' ' := by
  constructor
  · intro h i j
    cases b
    simp only [isBoardFull, isBoardFullRows, isBoardFullCols, range3, Board.get, idx,
      Board.cell] at h
    fin_cases i <;> fin_cases j <;> simp only [Board.get, idx, Board.cell] <;> intro hc <;>
      subst hc <;> simp at h
  · intro h
    have h00 := h 0 0; have h01 := h 0 1; have h02 := h 0 2
    have h10 := h 1 0; have h11 := h 1 1; have h12 := h 1 2
    have h20 := h 2 0; have h21 := h 2 1; have h22 := h 2 2
    cases b
    simp only [Board.get, idx, Board.cell] at h00 h01 h02 h10 h11 h12 h20 h21 h22
    simp only [isBoardFull, isBoardFullRows, isBoardFullCols, range3, Board.get, idx, Board.cell]
    simp [h00, h01, h02, h10, h11, h12, h20, h21, h22]

theorem exists_empty_of_not_full (b : Board) (h : isBoardFull b = false) :
    ∃ i j, b.get i j = ' ' := by
  by_contra hne
  have hall : ∀ i j, b.get i j ≠ ' ' := fun i j hc => hne ⟨i, j, hc⟩
  rw [(isBoardFull_iff b).mpr hall] at h
  cases h

theorem not_full_of_empty (b : Board) (i j : Fin 3) (h : b.get i j = ' ') :
    isBoardFull b = false := by
  cases hF : isBoardFull b with
  | false => rfl
  | true => exact absurd h ((isBoardFull_iff b).mp hF i j)

theorem plain_total (fuel : Nat) (b : Board) (depth : Int) (m : Bool)
    (h : emptyCount b ≤ fuel) : ∃ t, minimaxPlainFuel fuel b depth m = some t := by
  obtain ⟨_, t, _, ht, _⟩ := minimaxFuel_spec fuel b depth m 0 0 h
  exact ⟨t, ht⟩

/-- The unpruned score of a maximizing node that is not terminal: the greatest
score of a child (never below the initial `-1000`). -/
theorem plain_max_node (n : Nat) (b : Board) (d : Int) (hcnt : emptyCount b ≤ n + 1)
    (hd : wrapInt (d + 1) = d + 1) (hO : checkWin b 'O' = false) (hX : checkWin b 'X' = false) (hF : isBoardFull b = false) :
    ∃ v, minimaxPlainFuel (n + 1) b d true = some v ∧ -1000 ≤ v ∧
      (∀ i j, b.get i j = ' ' →
        ∃ t, minimaxPlainFuel n (b.set i j 'O') (d + 1) false = some t ∧ t ≤ v) ∧
      (v = -1000 ∨ ∃ i j, b.get i j = ' ' ∧
        minimaxPlainFuel n (b.set i j 'O') (d + 1) false = some v) := by
  have hT : ∀ i j, b.get i j = ' ' →
      ∃ t, minimaxPlainFuel n (b.set i j 'O') (d + 1) false = some t := by
    intro i j hg
    have hc := emptyCount_set b i j 'O' hg (by decide)
    exact plain_total n _ _ _ (by omega)
  obtain ⟨v, h1, h2, h3, h4⟩ :=
    plainMaxRows_char (fun b1 => minimaxPlainFuel n b1 (d + 1) false) b hT range3 (-1000)
  refine ⟨v, ?_, h2, ?_, h4⟩
  · rw [minimaxPlainFuel_max n b d hO hX hF, hd, h1]
  · intro i j hg
    obtain ⟨t, ht⟩ := hT i j hg
    exact ⟨t, ht, h3 i (mem_range3 i) j hg t ht⟩

/-- The unpruned score of a minimizing node that is not terminal: the least
score of a child (never above the initial `1000`). -/
theorem plain_min_node (n : Nat) (b : Board) (d : Int) (hcnt : emptyCount b ≤ n + 1)
    (hd : wrapInt (d + 1) = d + 1) (hO : checkWin b 'O' = false) (hX : checkWin b 'X' = false) (hF : isBoardFull b = false) :
    ∃ v, minimaxPlainFuel (n + 1) b d false = some v ∧ v ≤ 1000 ∧
      (∀ i j, b.get i j = ' ' →
        ∃ t, minimaxPlainFuel n (b.set i j 'X') (d + 1) true = some t ∧ v ≤ t) ∧
      (v = 1000 ∨ ∃ i j, b.get i j = ' ' ∧
        minimaxPlainFuel n (b.set i j 'X') (d + 1) true = some v) := by
  have hT : ∀ i j, b.get i j = ' ' →
      ∃ t, minimaxPlainFuel n (b.set i j 'X') (d + 1) true = some t := by
    intro i j hg
    have hc := emptyCount_set b i j 'X' hg (by decide)
    exact plain_total n _ _ _ (by omega)
  obtain ⟨v, h1, h2, h3, h4⟩ :=
    plainMinRows_char (fun b1 => minimaxPlainFuel n b1 (d + 1) true) b hT range3 1000
  refine ⟨v, ?_, h2, ?_, h4⟩
  · rw [minimaxPlainFuel_min n b d hO hX hF, hd, h1]
  · intro i j hg
    obtain ⟨t, ht⟩ := hT i j hg
    exact ⟨t, ht, h3 i (mem_range3 i) j hg t ht⟩

/-- Range of the unpruned score: at depth `d` with at most `10 - d` empty cells
it lies in `[d - 10, 10 - d]`. -/
theorem plain_bounds : ∀ (fuel : Nat) (b : Board) (d : Int) (m : Bool), emptyCount b ≤ fuel →
    0 ≤ d → d + emptyCount b ≤ 10 → ∀ t, minimaxPlainFuel fuel b d m = some t →
    d - 10 ≤ t ∧ t ≤ 10 - d := by
  intro fuel
  induction fuel with
  | zero =>
    intro b d m hle hd hsum t ht
    have hfull : isBoardFull b = true := isBoardFull_of_emptyCount b (by omega)
    cases hO : checkWin b 'O' with
    | true =>
      rw [minimaxPlainFuel_winO _ _ _ _ hO, wrapInt_small _ (by omega) (by omega)] at ht
      cases ht; omega
    | false =>
      cases hX : checkWin b 'X' with
      | true =>
        rw [minimaxPlainFuel_winX _ _ _ _ hO hX, wrapInt_small _ (by omega) (by omega)] at ht
        cases ht; omega
      | false =>
        rw [minimaxPlainFuel_full _ _ _ _ hO hX hfull] at ht
        cases ht; omega
  | succ n ih =>
    intro b d m hle hd hsum t ht
    cases hO : checkWin b 'O' with
    | true =>
      rw [minimaxPlainFuel_winO _ _ _ _ hO, wrapInt_small _ (by omega) (by omega)] at ht
      cases ht; omega
    | false =>
      cases hX : checkWin b 'X' with
      | true =>
        rw [minimaxPlainFuel_winX _ _ _ _ hO hX, wrapInt_small _ (by omega) (by omega)] at ht
        cases ht; omega
      | false =>
        cases hF : isBoardFull b with
        | true =>
          rw [minimaxPlainFuel_full _ _ _ _ hO hX hF] at ht
          cases ht; omega
        | false =>
          obtain ⟨i0, j0, hg0⟩ := exists_empty_of_not_full b hF
          cases m with
          | true =>
            obtain ⟨v, hv, hlow, hall, hex⟩ := plain_max_node n b d hle
              (wrapInt_small _ (by omega) (by omega)) hO hX hF
            rw [hv] at ht
            cases ht
            obtain ⟨t0, ht0, hle0⟩ := hall i0 j0 hg0
            have hc0 := emptyCount_set b i0 j0 'O' hg0 (by decide)
            have hb0 := ih (b.set i0 j0 'O') (d + 1) false (by omega) (by omega) (by omega) t0 ht0
            rcases hex with hex | ⟨i1, j1, hg1, hp1⟩
            · omega
            · have hc1 := emptyCount_set b i1 j1 'O' hg1 (by decide)
              have hb1 := ih (b.set i1 j1 'O') (d + 1) false (by omega) (by omega) (by omega) _ hp1
              omega
          | false =>
            obtain ⟨v, hv, hlow, hall, hex⟩ := plain_min_node n b d hle
              (wrapInt_small _ (by omega) (by omega)) hO hX hF
            rw [hv] at ht
            cases ht
            obtain ⟨t0, ht0, hle0⟩ := hall i0 j0 hg0
            have hc0 := emptyCount_set b i0 j0 'X' hg0 (by decide)
            have hb0 := ih (b.set i0 j0 'X') (d + 1) true (by omega) (by omega) (by omega) t0 ht0
            rcases hex with hex | ⟨i1, j1, hg1, hp1⟩
            · omega
            · have hc1 := emptyCount_set b i1 j1 'X' hg1 (by decide)
              have hb1 := ih (b.set i1 j1 'X') (d + 1) true (by omega) (by omega) (by omega) _ hp1
              omega

/-- With the default window at depth `0`, `minimax` returns the unpruned score
and the board it was given. -/
theorem minimax_eq_plain (b : Board) (m : Bool) :
    ∃ t, minimax b 0 m (-1000) 1000 = some (t, b) ∧ minimaxPlain b 0 m = some t ∧
      -10 ≤ t ∧ t ≤ 10 := by
  obtain ⟨r, t, hr, ht, hgood⟩ := minimaxFuel_spec 9 b 0 m (-1000) 1000 (emptyCount_le b)
  have hb := plain_bounds 9 b 0 m (emptyCount_le b) (le_refl _)
    (by have := emptyCount_le b; omega) t ht
  have hg := hgood (by decide)
  unfold Good at hg
  have hrt : r = t := by omega
  subst hrt
  exact ⟨r, hr, ht, by omega, by omega⟩

/-! ## The root loop of the Hard branch -/

theorem cellsOf_range3 : cellsOf range3 = allCells := rfl

theorem mem_allCells (p : Fin 3 × Fin 3) : p ∈ allCells := by
  obtain ⟨i, j⟩ := p
  fin_cases i <;> fin_cases j <;> simp [allCells]

theorem allCells_pairwise : allCells.Pairwise cellBefore := by
  unfold allCells
  decide

theorem cellBefore_asymm (p q : Fin 3 × Fin 3) (h : cellBefore p q) : ¬ cellBefore q p := by
  unfold cellBefore at *
  omega

/-- In a splitting of `allCells` around `p`, the cells before `p` in row-major
order are those of the first part. -/
theorem before_mem_front (l1 l2 : List (Fin 3 × Fin 3)) (p q : Fin 3 × Fin 3)
    (hs : allCells = l1 ++ p :: l2) (hq : cellBefore q p) : q ∈ l1 := by
  have hm : q ∈ l1 ++ p :: l2 := hs ▸ mem_allCells q
  have hp : (l1 ++ p :: l2).Pairwise cellBefore := hs ▸ allCells_pairwise
  rcases List.mem_append.mp hm with h | h
  · exact h
  · exfalso
    rcases List.mem_cons.mp h with rfl | h2
    · exact cellBefore_asymm _ _ hq hq
    · have hp2 := (List.pairwise_append.mp hp).2.1
      exact cellBefore_asymm _ _ hq ((List.pairwise_cons.mp hp2).1 q h2)

theorem hardCols_eq_cells (search : Board → Option (Int × Board)) (i : Fin 3) :
    ∀ (js : List (Fin 3)) (st : HardState),
      hardCols search i js st = hardCells search (js.map (Prod.mk i)) st := by
  intro js
  induction js with
  | nil => intro st; rfl
  | cons j rest ih =>
    intro st
    simp only [hardCols, List.map_cons, hardCells, ih]

theorem hardCells_append (search : Board → Option (Int × Board)) :
    ∀ (l1 l2 : List (Fin 3 × Fin 3)) (st : HardState),
      hardCells search (l1 ++ l2) st = (hardCells search l1 st).bind (hardCells search l2) := by
  intro l1
  induction l1 with
  | nil => intro l2 st; rfl
  | cons p rest ih =>
    intro l2 st
    simp only [List.cons_append, hardCells]
    split
    · split
      · rfl
      · split <;> exact ih _ _
    · exact ih _ _

theorem hardRows_eq_cells (search : Board → Option (Int × Board)) :
    ∀ (rows : List (Fin 3)) (st : HardState),
      hardRows search rows st = hardCells search (cellsOf rows) st := by
  intro rows
  induction rows with
  | nil => intro st; rfl
  | cons i rest ih =>
    intro st
    simp only [hardRows, cellsOf, hardCells_append, hardCols_eq_cells]
    cases hardCells search (List.map (Prod.mk i) range3) st with
    | none => rfl
    | some st1 => exact ih st1

/-- The loop over a list of cells, started on board `b`: either no empty cell
of the list beats the current `bestScore` and the state is unchanged, or the
state ends at the first empty cell of the list with the greatest score. -/
theorem hardCells_spec (search : Board → Option (Int × Board)) (b : Board)
    (sc : Fin 3 × Fin 3 → Int)
    (hs : ∀ p : Fin 3 × Fin 3, b.get p.1 p.2 = ' ' →
      search (b.set p.1 p.2 'O') = some (sc p, b.set p.1 p.2 'O')) :
    ∀ (l : List (Fin 3 × Fin 3)) (st : HardState), st.board = b →
      (hardCells search l st = some st ∧ ∀ q ∈ l, b.get q.1 q.2 = ' ' → sc q ≤ st.bestScore) ∨
      (∃ l1 p l2, l = l1 ++ p :: l2 ∧ b.get p.1 p.2 = ' ' ∧ st.bestScore < sc p ∧
        hardCells search l st = some ⟨b, sc p, some p⟩ ∧
        (∀ q ∈ l1, b.get q.1 q.2 = ' ' → sc q < sc p) ∧
        (∀ q ∈ l2, b.get q.1 q.2 = ' ' → sc q ≤ sc p)) := by
  intro l
  induction l with
  | nil => intro st _; exact Or.inl ⟨rfl, by simp⟩
  | cons p rest ih =>
    intro st hb
    by_cases hg : b.get p.1 p.2 = ' '
    · have hundo := set_undo b p.1 p.2 'O' hg
      by_cases hgt : sc p > st.bestScore
      · have hstep : hardCells search (p :: rest) st =
            hardCells search rest ⟨b, sc p, some p⟩ := by
          simp only [hardCells, hb, hg, beq_self_eq_true, if_true, hs p hg, hgt, hundo]
        rcases ih ⟨b, sc p, some p⟩ rfl with ⟨h1, h2⟩ | ⟨l1, p1, l2, he, hg1, hlt, h1, h2, h3⟩
        · exact Or.inr ⟨[], p, rest, rfl, hg, hgt, by rw [hstep, h1], by simp, h2⟩
        · refine Or.inr ⟨p :: l1, p1, l2, by rw [he]; rfl, hg1, ?_, by rw [hstep, h1], ?_, h3⟩
          · have : sc p < sc p1 := hlt
            omega
          · intro q hq hgq
            rcases List.mem_cons.mp hq with rfl | hq1
            · exact hlt
            · exact h2 q hq1 hgq
      · have hstep : hardCells search (p :: rest) st = hardCells search rest st := by
          have hst : (⟨b, st.bestScore, st.best⟩ : HardState) = st := by
            cases st; cases hb; rfl
          simp only [hardCells, hb, hg, beq_self_eq_true, if_true, hs p hg, hgt, if_false, hundo,
            hst]
        rcases ih st hb with ⟨h1, h2⟩ | ⟨l1, p1, l2, he, hg1, hlt, h1, h2, h3⟩
        · refine Or.inl ⟨by rw [hstep, h1], ?_⟩
          intro q hq hgq
          rcases List.mem_cons.mp hq with rfl | hq1
          · omega
          · exact h2 q hq1 hgq
        · refine Or.inr ⟨p :: l1, p1, l2, by rw [he]; rfl, hg1, hlt, by rw [hstep, h1], ?_, h3⟩
          intro q hq hgq
          rcases List.mem_cons.mp hq with rfl | hq1
          · omega
          · exact h2 q hq1 hgq
    · have hg1 : (b.get p.1 p.2 == ' ') = false := by simpa using hg
      have hstep : hardCells search (p :: rest) st = hardCells search rest st := by
        simp only [hardCells, hb, hg1, Bool.false_eq_true, if_false]
      rcases ih st hb with ⟨h1, h2⟩ | ⟨l1, p1, l2, he, hgp, hlt, h1, h2, h3⟩
      · refine Or.inl ⟨by rw [hstep, h1], ?_⟩
        intro q hq hgq
        rcases List.mem_cons.mp hq with rfl | hq1
        · exact absurd hgq hg
        · exact h2 q hq1 hgq
      · refine Or.inr ⟨p :: l1, p1, l2, by rw [he]; rfl, hgp, hlt, by rw [hstep, h1], ?_, h3⟩
        intro q hq hgq
        rcases List.mem_cons.mp hq with rfl | hq1
        · exact absurd hgq hg
        · exact h2 q hq1 hgq

theorem minimax_root (b : Board) (p : Fin 3 × Fin 3) :
    minimax (b.set p.1 p.2 'O') 0 false (-1000) 1000 = some (rootScore b p, b.set p.1 p.2 'O') ∧
      -10 ≤ rootScore b p ∧ rootScore b p ≤ 10 := by
  obtain ⟨t, h1, h2, h3, h4⟩ := minimax_eq_plain (b.set p.1 p.2 'O') false
  have hr : rootScore b p = t := by
    unfold rootScore
    rw [h2]
    rfl
  rw [hr]
  exact ⟨h1, h3, h4⟩

/-- The Hard branch on a board with an empty cell: `'O'` goes to the first
empty cell, in row-major order, whose `rootScore` is greatest. -/
theorem hard_choice (b : Board) (hne : ∃ i j, b.get i j = ' ') :
    ∃ p : Fin 3 × Fin 3, b.get p.1 p.2 = ' ' ∧ computerMoveHard b = some (b.set p.1 p.2 'O') ∧
      (∀ q : Fin 3 × Fin 3, b.get q.1 q.2 = ' ' → rootScore b q ≤ rootScore b p) ∧
      (∀ q : Fin 3 × Fin 3, cellBefore q p → b.get q.1 q.2 = ' ' →
        rootScore b q < rootScore b p) := by
  obtain ⟨i0, j0, hg0⟩ := hne
  have hs : ∀ p : Fin 3 × Fin 3, b.get p.1 p.2 = ' ' →
      minimax (b.set p.1 p.2 'O') 0 false (-1000) 1000 =
        some (rootScore b p, b.set p.1 p.2 'O') := fun p _ => (minimax_root b p).1
  rcases hardCells_spec (fun b1 => minimax b1 0 false (-1000) 1000) b (rootScore b) hs allCells
    ⟨b, -1000, none⟩ rfl with
    ⟨-, h2⟩ | ⟨l1, p, l2, he, hg, -, h1, h2, h3⟩
  · have := h2 (i0, j0) (mem_allCells _) hg0
    have := (minimax_root b (i0, j0)).2.1
    simp only at *
    omega
  · refine ⟨p, hg, ?_, ?_, ?_⟩
    · unfold computerMoveHard computerMoveHardWith
      rw [hardRows_eq_cells, cellsOf_range3, h1]
    · intro q hgq
      have hm : q ∈ l1 ++ p :: l2 := he ▸ mem_allCells q
      rcases List.mem_append.mp hm with h | h
      · exact le_of_lt (h2 q h hgq)
      · rcases List.mem_cons.mp h with rfl | h4
        · exact le_refl _
        · exact h3 q h4 hgq
    · intro q hq hgq
      exact h2 q (before_mem_front l1 l2 p q he hq) hgq

theorem rootScore_win (b : Board) (p : Fin 3 × Fin 3)
    (hw : checkWin (b.set p.1 p.2 'O') 'O' = true) : rootScore b p = 10 := by
  unfold rootScore minimaxPlain
  rw [minimaxPlainFuel_winO _ _ _ _ hw]
  rfl

theorem rootScore_not_win (b : Board) (p : Fin 3 × Fin 3) (hg : b.get p.1 p.2 = ' ')
    (hw : checkWin (b.set p.1 p.2 'O') 'O' = false) : rootScore b p ≤ 9 := by
  have hc := emptyCount_set b p.1 p.2 'O' hg (by decide)
  have h9 := emptyCount_le b
  unfold rootScore minimaxPlain
  cases hX : checkWin (b.set p.1 p.2 'O') 'X' with
  | true =>
    rw [minimaxPlainFuel_winX _ _ _ _ hw hX]
    decide
  | false =>
    cases hF : isBoardFull (b.set p.1 p.2 'O') with
    | true =>
      rw [minimaxPlainFuel_full _ _ _ _ hw hX hF]
      decide
    | false =>
      obtain ⟨v, hv, -, hall, -⟩ := plain_min_node 8 (b.set p.1 p.2 'O') 0 (by omega)
        (wrapInt_small _ (by omega) (by omega)) hw hX hF
      obtain ⟨i0, j0, hg0⟩ := exists_empty_of_not_full _ hF
      obtain ⟨t, ht, hle⟩ := hall i0 j0 hg0
      have hc0 := emptyCount_set (b.set p.1 p.2 'O') i0 j0 'X' hg0 (by decide)
      have hb := plain_bounds 8 _ (0 + 1) true (by omega) (by omega) (by omega) t ht
      rw [hv]
      show v ≤ 9
      omega

/-! ## Lines -/

theorem checkWin_iff (b : Board) (symbol : Char) :
    checkWin b symbol = true ↔
      (b.get 0 0 = symbol ∧ b.get 0 1 = symbol ∧ b.get 0 2 = symbol) ∨
      (b.get 1 0 = symbol ∧ b.get 1 1 = symbol ∧ b.get 1 2 = symbol) ∨
      (b.get 2 0 = symbol ∧ b.get 2 1 = symbol ∧ b.get 2 2 = symbol) ∨
      (b.get 0 0 = symbol ∧ b.get 1 0 = symbol ∧ b.get 2 0 = symbol) ∨
      (b.get 0 1 = symbol ∧ b.get 1 1 = symbol ∧ b.get 2 1 = symbol) ∨
      (b.get 0 2 = symbol ∧ b.get 1 2 = symbol ∧ b.get 2 2 = symbol) ∨
      (b.get 0 0 = symbol ∧ b.get 1 1 = symbol ∧ b.get 2 2 = symbol) ∨
      (b.get 0 2 = symbol ∧ b.get 1 1 = symbol ∧ b.get 2 0 = symbol) := by
  have hc : ∀ c : Char, (c = symbol) ↔ ((c == symbol) = true) := fun c => beq_iff_eq.symm
  simp only [checkWin, checkWinLoop, range3, hc]
  generalize (b.get 0 0 == symbol) = x00
  generalize (b.get 0 1 == symbol) = x01
  generalize (b.get 0 2 == symbol) = x02
  generalize (b.get 1 0 == symbol) = x10
  generalize (b.get 1 1 == symbol) = x11
  generalize (b.get 1 2 == symbol) = x12
  generalize (b.get 2 0 == symbol) = x20
  generalize (b.get 2 1 == symbol) = x21
  generalize (b.get 2 2 == symbol) = x22
  cases x00 <;> cases x01 <;> cases x02 <;> cases x10 <;> cases x11 <;> cases x12 <;>
    cases x20 <;> cases x21 <;> cases x22 <;> decide

/-- Writing `c` on an empty cell changes no line of another symbol. -/
theorem checkWin_set_other (b : Board) (i j : Fin 3) (c symbol : Char) (hg : b.get i j = ' ')
    (hs : symbol ≠ ' ') (hc : c ≠ symbol) : checkWin (b.set i j c) symbol = checkWin b symbol := by
  have h1 : (c == symbol) = false := by simpa using hc
  have h2 : ((' ' : Char) == symbol) = false := by simpa using hs.symm
  cases b
  fin_cases i <;> fin_cases j <;>
    (simp only [Board.get, idx, Board.cell] at hg
     subst hg
     simp only [checkWin, checkWinLoop, range3, Board.get, Board.set, idx, Board.cell,
       Board.setCell, h1, h2])

theorem cellOffset_in_range (i j : Fin 3) :
    cellOffset (i.val : Int) (j.val : Int) = some (idx i j) := by
  fin_cases i <;> fin_cases j <;> rfl

theorem makeMove_true_iff (b b1 : Board) (i j : Fin 3) (symbol : Char) :
    makeMove b (i.val : Int) (j.val : Int) symbol = some (true, b1) ↔
      b.get i j = ' ' ∧ b1 = b.set i j symbol := by
  unfold makeMove
  rw [cellOffset_in_range]
  by_cases hg : b.get i j = ' '
  · have hg1 : b.cell (idx i j) = ' ' := hg
    simp only [hg1, beq_self_eq_true, if_true, Option.some.injEq, Prod.mk.injEq, true_and, hg]
    exact ⟨fun h => h.symm, fun h => h.symm⟩
  · have hg1 : (b.cell (idx i j) == ' ') = false := by simpa using hg
    simp [hg1, hg]

/-! ## The probing loops of the Medium branch -/

theorem tryWinCols_eq_cells (i : Fin 3) :
    ∀ (js : List (Fin 3)) (b : Board),
      tryWinCols i js b = probeCells 'O' (js.map (Prod.mk i)) b := by
  intro js
  induction js with
  | nil => intro b; rfl
  | cons j rest ih =>
    intro b
    simp only [tryWinCols, List.map_cons, probeCells, ih, set_set]

theorem tryBlockCols_eq_cells (i : Fin 3) :
    ∀ (js : List (Fin 3)) (b : Board),
      tryBlockCols i js b = probeCells 'X' (js.map (Prod.mk i)) b := by
  intro js
  induction js with
  | nil => intro b; rfl
  | cons j rest ih =>
    intro b
    simp only [tryBlockCols, List.map_cons, probeCells, ih]

theorem probeCells_append (symbol : Char) :
    ∀ (l1 l2 : List (Fin 3 × Fin 3)) (b : Board),
      probeCells symbol (l1 ++ l2) b =
        match probeCells symbol l1 b with
        | Ctl.done b1 => Ctl.done b1
        | Ctl.next b1 => probeCells symbol l2 b1 := by
  intro l1
  induction l1 with
  | nil => intro l2 b; rfl
  | cons p rest ih =>
    intro l2 b
    simp only [List.cons_append, probeCells]
    split
    · split
      · rfl
      · exact ih _ _
    · exact ih _ _

theorem tryWinRows_eq_cells :
    ∀ (rows : List (Fin 3)) (b : Board), tryWinRows rows b = probeCells 'O' (cellsOf rows) b := by
  intro rows
  induction rows with
  | nil => intro b; rfl
  | cons i rest ih =>
    intro b
    simp only [tryWinRows, cellsOf, probeCells_append, tryWinCols_eq_cells]
    cases probeCells 'O' (List.map (Prod.mk i) range3) b with
    | done b1 => rfl
    | next b1 => exact ih b1

theorem tryBlockRows_eq_cells :
    ∀ (rows : List (Fin 3)) (b : Board),
      tryBlockRows rows b = probeCells 'X' (cellsOf rows) b := by
  intro rows
  induction rows with
  | nil => intro b; rfl
  | cons i rest ih =>
    intro b
    simp only [tryBlockRows, cellsOf, probeCells_append, tryBlockCols_eq_cells]
    cases probeCells 'X' (List.map (Prod.mk i) range3) b with
    | done b1 => rfl
    | next b1 => exact ih b1

/-- The probing loop over a list of cells: either no empty cell of the list
completes a line and the board is as before, or the loop returns at the first
empty cell of the list that completes one, with `'O'` there. -/
theorem probeCells_spec (symbol : Char) (b : Board) :
    ∀ l : List (Fin 3 × Fin 3),
      (probeCells symbol l b = Ctl.next b ∧
        ∀ q ∈ l, b.get q.1 q.2 = ' ' → checkWin (b.set q.1 q.2 symbol) symbol = false) ∨
      (∃ l1 p l2, l = l1 ++ p :: l2 ∧ b.get p.1 p.2 = ' ' ∧
        checkWin (b.set p.1 p.2 symbol) symbol = true ∧
        probeCells symbol l b = Ctl.done (b.set p.1 p.2 'O') ∧
        ∀ q ∈ l1, b.get q.1 q.2 = ' ' → checkWin (b.set q.1 q.2 symbol) symbol = false) := by
  intro l
  induction l with
  | nil => exact Or.inl ⟨rfl, by simp⟩
  | cons p rest ih =>
    by_cases hg : b.get p.1 p.2 = ' '
    · cases hw : checkWin (b.set p.1 p.2 symbol) symbol with
      | true =>
        refine Or.inr ⟨[], p, rest, rfl, hg, hw, ?_, by simp⟩
        simp only [probeCells, hg, beq_self_eq_true, if_true, hw, set_set]
      | false =>
        have hstep : probeCells symbol (p :: rest) b = probeCells symbol rest b := by
          simp only [probeCells, hg, beq_self_eq_true, if_true, hw, Bool.false_eq_true, if_false,
            set_undo b p.1 p.2 symbol hg]
        rcases ih with ⟨h1, h2⟩ | ⟨l1, p1, l2, he, hg1, hw1, h1, h2⟩
        · refine Or.inl ⟨by rw [hstep, h1], ?_⟩
          intro q hq hgq
          rcases List.mem_cons.mp hq with rfl | hq1
          · exact hw
          · exact h2 q hq1 hgq
        · refine Or.inr ⟨p :: l1, p1, l2, by rw [he]; rfl, hg1, hw1, by rw [hstep, h1], ?_⟩
          intro q hq hgq
          rcases List.mem_cons.mp hq with rfl | hq1
          · exact hw
          · exact h2 q hq1 hgq
    · have hg1 : (b.get p.1 p.2 == ' ') = false := by simpa using hg
      have hstep : probeCells symbol (p :: rest) b = probeCells symbol rest b := by
        simp only [probeCells, hg1, Bool.false_eq_true, if_false]
      rcases ih with ⟨h1, h2⟩ | ⟨l1, p1, l2, he, hgp, hw1, h1, h2⟩
      · refine Or.inl ⟨by rw [hstep, h1], ?_⟩
        intro q hq hgq
        rcases List.mem_cons.mp hq with rfl | hq1
        · exact absurd hgq hg
        · exact h2 q hq1 hgq
      · refine Or.inr ⟨p :: l1, p1, l2, by rw [he]; rfl, hgp, hw1, by rw [hstep, h1], ?_⟩
        intro q hq hgq
        rcases List.mem_cons.mp hq with rfl | hq1
        · exact absurd hgq hg
        · exact h2 q hq1 hgq

/-! ## Forced wins and the sign of the score -/

theorem PlayStep_X (b : Board) (i j : Fin 3) (hg : b.get i j = ' ') :
    PlayStep ⟨b, true, false⟩ (roundAfter (b.set i j 'X') 'X' false) :=
  PlayStep.moveX ⟨b, true, false⟩ i j _ rfl rfl ((makeMove_true_iff b _ i j 'X').mpr ⟨hg, rfl⟩)

theorem PlayStep_O (b : Board) (i j : Fin 3) (hg : b.get i j = ' ') :
    PlayStep ⟨b, false, false⟩ (roundAfter (b.set i j 'O') 'O' true) :=
  PlayStep.moveO ⟨b, false, false⟩ i j _ rfl rfl ((makeMove_true_iff b _ i j 'O').mpr ⟨hg, rfl⟩)

theorem PlayStep_inv (s s1 : Round) (h : PlayStep s s1) :
    s.roundOver = false ∧
      ((s.playerTurn = true ∧
          ∃ i j, s.board.get i j = ' ' ∧ s1 = roundAfter (s.board.set i j 'X') 'X' false) ∨
        (s.playerTurn = false ∧
          ∃ i j, s.board.get i j = ' ' ∧ s1 = roundAfter (s.board.set i j 'O') 'O' true)) := by
  cases h with
  | moveX i j b1 hover hturn hm =>
    obtain ⟨hg, rfl⟩ := (makeMove_true_iff _ _ i j 'X').mp hm
    exact ⟨hover, Or.inl ⟨hturn, i, j, hg, rfl⟩⟩
  | moveO i j b1 hover hturn hm =>
    obtain ⟨hg, rfl⟩ := (makeMove_true_iff _ _ i j 'O').mp hm
    exact ⟨hover, Or.inr ⟨hturn, i, j, hg, rfl⟩⟩

theorem XForces_inv (s : Round) (h : XForces s) :
    checkWin s.board 'X' = true ∨
      (s.playerTurn = true ∧ ∃ s1, PlayStep s s1 ∧ XForces s1) ∨
      (s.playerTurn = false ∧ (∃ s1, PlayStep s s1) ∧ ∀ s1, PlayStep s s1 → XForces s1) :=
  match h with
  | XForces.won _ hw => Or.inl hw
  | XForces.playerMove _ s1 ht hs hf => Or.inr (Or.inl ⟨ht, s1, hs, hf⟩)
  | XForces.opponentMove _ ht hex hall => Or.inr (Or.inr ⟨ht, hex, hall⟩)

theorem not_XForces_over (s : Round) (hover : s.roundOver = true)
    (hX : checkWin s.board 'X' = false) : ¬ XForces s := by
  intro h
  rcases XForces_inv s h with hw | ⟨-, s1, hstep, -⟩ | ⟨-, ⟨s1, hstep⟩, -⟩
  · rw [hX] at hw
    cases hw
  · have := (PlayStep_inv _ _ hstep).1
    rw [hover] at this
    cases this
  · have := (PlayStep_inv _ _ hstep).1
    rw [hover] at this
    cases this

theorem XForces_player_iff (b : Board) (hX : checkWin b 'X' = false) :
    XForces ⟨b, true, false⟩ ↔
      ∃ i j, b.get i j = ' ' ∧ XForces (roundAfter (b.set i j 'X') 'X' false) := by
  constructor
  · intro h
    rcases XForces_inv _ h with hw | ⟨-, s1, hstep, hf⟩ | ⟨ht, -, -⟩
    · have hw1 : checkWin b 'X' = true := hw
      rw [hX] at hw1
      cases hw1
    · rcases (PlayStep_inv _ _ hstep).2 with ⟨-, i, j, hg, rfl⟩ | ⟨ht, -⟩
      · exact ⟨i, j, hg, hf⟩
      · cases ht
    · cases ht
  · rintro ⟨i, j, hg, hf⟩
    exact XForces.playerMove _ _ rfl (PlayStep_X b i j hg) hf

theorem XForces_opponent_iff (b : Board) (hX : checkWin b 'X' = false)
    (hne : ∃ i j, b.get i j = ' ') :
    XForces ⟨b, false, false⟩ ↔
      ∀ i j, b.get i j = ' ' → XForces (roundAfter (b.set i j 'O') 'O' true) := by
  constructor
  · intro h i j hg
    rcases XForces_inv _ h with hw | ⟨ht, -⟩ | ⟨-, -, hall⟩
    · have hw1 : checkWin b 'X' = true := hw
      rw [hX] at hw1
      cases hw1
    · cases ht
    · exact hall _ (PlayStep_O b i j hg)
  · intro hall
    obtain ⟨i0, j0, hg0⟩ := hne
    refine XForces.opponentMove _ rfl ⟨_, PlayStep_O b i0 j0 hg0⟩ ?_
    intro s1 hstep
    rcases (PlayStep_inv _ _ hstep).2 with ⟨ht, -⟩ | ⟨-, i, j, hg, rfl⟩
    · cases ht
    · exact hall i j hg

theorem sign_min_terminal (fuel : Nat) (b : Board) (d : Int) (hd0 : 0 ≤ d) (hd9 : d ≤ 9)
    (hX : checkWin b 'X' = false) (hterm : checkWin b 'O' = true ∨ isBoardFull b = true) :
    ∀ t, minimaxPlainFuel fuel b d false = some t →
      (t < 0 ↔ XForces (roundAfter b 'O' true)) := by
  intro t ht
  have hno : ¬ XForces (roundAfter b 'O' true) := by
    apply not_XForces_over _ _ hX
    show (checkWin b 'O' || isBoardFull b) = true
    rcases hterm with h | h <;> simp [h]
  have hge : 0 ≤ t := by
    cases hO : checkWin b 'O' with
    | true =>
      rw [minimaxPlainFuel_winO _ _ _ _ hO, wrapInt_small _ (by omega) (by omega)] at ht
      cases ht; omega
    | false =>
      rcases hterm with h | h
      · rw [hO] at h; cases h
      · rw [minimaxPlainFuel_full _ _ _ _ hO hX h] at ht
        cases ht; omega
  constructor
  · intro hlt; omega
  · intro hf; exact absurd hf hno

theorem sign_max_terminal (fuel : Nat) (b : Board) (d : Int) (hd0 : 0 ≤ d) (hd9 : d ≤ 9)
    (hO : checkWin b 'O' = false) (hterm : checkWin b 'X' = true ∨ isBoardFull b = true) :
    ∀ t, minimaxPlainFuel fuel b d true = some t →
      (t < 0 ↔ XForces (roundAfter b 'X' false)) := by
  intro t ht
  cases hX : checkWin b 'X' with
  | true =>
    rw [minimaxPlainFuel_winX _ _ _ _ hO hX, wrapInt_small _ (by omega) (by omega)] at ht
    cases ht
    exact ⟨fun _ => XForces.won _ hX, fun _ => by omega⟩
  | false =>
    rcases hterm with h | h
    · rw [hX] at h; cases h
    · rw [minimaxPlainFuel_full _ _ _ _ hO hX h] at ht
      cases ht
      have hno : ¬ XForces (roundAfter b 'X' false) := by
        apply not_XForces_over _ _ hX
        show (checkWin b 'X' || isBoardFull b) = true
        simp [h]
      exact ⟨fun hlt => by omega, fun hf => absurd hf hno⟩

theorem roundAfter_open (b : Board) (symbol : Char) (turn : Bool)
    (hw : checkWin b symbol = false) (hF : isBoardFull b = false) :
    roundAfter b symbol turn = ⟨b, turn, false⟩ := by
  simp [roundAfter, hw, hF]

/-- The sign of the unpruned score tells whether player 1 can force a line:
at a node where `'X'` is to move and has no line yet, and at a node where
`'O'` is to move and has no line yet, the score is negative exactly when
`XForces` holds of the round state. -/
theorem plain_sign : ∀ (fuel : Nat) (b : Board) (d : Int), emptyCount b ≤ fuel → 0 ≤ d →
    d + emptyCount b ≤ 9 →
    (checkWin b 'X' = false → ∀ t, minimaxPlainFuel fuel b d false = some t →
      (t < 0 ↔ XForces (roundAfter b 'O' true))) ∧
    (checkWin b 'O' = false → ∀ t, minimaxPlainFuel fuel b d true = some t →
      (t < 0 ↔ XForces (roundAfter b 'X' false))) := by
  intro fuel
  induction fuel with
  | zero =>
    intro b d hle hd hsum
    have hfull : isBoardFull b = true := isBoardFull_of_emptyCount b (by omega)
    exact ⟨fun hX => sign_min_terminal 0 b d hd (by omega) hX (Or.inr hfull),
      fun hO => sign_max_terminal 0 b d hd (by omega) hO (Or.inr hfull)⟩
  | succ n ih =>
    intro b d hle hd hsum
    constructor
    · intro hX
      cases hO : checkWin b 'O' with
      | true => exact sign_min_terminal _ b d hd (by omega) hX (Or.inl hO)
      | false =>
        cases hF : isBoardFull b with
        | true => exact sign_min_terminal _ b d hd (by omega) hX (Or.inr hF)
        | false =>
          intro t ht
          obtain ⟨v, hv, -, hall, hex⟩ := plain_min_node n b d hle
            (wrapInt_small _ (by omega) (by omega)) hO hX hF
          rw [hv] at ht
          cases ht
          rw [roundAfter_open b 'O' true hO hF, XForces_player_iff b hX]
          have hchild : ∀ i j, b.get i j = ' ' → ∀ t1,
              minimaxPlainFuel n (b.set i j 'X') (d + 1) true = some t1 →
              (t1 < 0 ↔ XForces (roundAfter (b.set i j 'X') 'X' false)) := by
            intro i j hg t1 ht1
            have hc := emptyCount_set b i j 'X' hg (by decide)
            have hO1 : checkWin (b.set i j 'X') 'O' = false := by
              rw [checkWin_set_other b i j 'X' 'O' hg (by decide) (by decide)]
              exact hO
            exact (ih (b.set i j 'X') (d + 1) (by omega) (by omega) (by omega)).2 hO1 t1 ht1
          constructor
          · intro hlt
            rcases hex with hex | ⟨i, j, hg, hp⟩
            · omega
            · exact ⟨i, j, hg, (hchild i j hg _ hp).mp hlt⟩
          · rintro ⟨i, j, hg, hf⟩
            obtain ⟨t1, ht1, hle1⟩ := hall i j hg
            have := (hchild i j hg t1 ht1).mpr hf
            omega
    · intro hO
      cases hX : checkWin b 'X' with
      | true => exact sign_max_terminal _ b d hd (by omega) hO (Or.inl hX)
      | false =>
        cases hF : isBoardFull b with
        | true => exact sign_max_terminal _ b d hd (by omega) hO (Or.inr hF)
        | false =>
          intro t ht
          obtain ⟨v, hv, hlow, hall, hex⟩ := plain_max_node n b d hle
            (wrapInt_small _ (by omega) (by omega)) hO hX hF
          rw [hv] at ht
          cases ht
          rw [roundAfter_open b 'X' false hX hF,
            XForces_opponent_iff b hX (exists_empty_of_not_full b hF)]
          have hchild : ∀ i j, b.get i j = ' ' → ∀ t1,
              minimaxPlainFuel n (b.set i j 'O') (d + 1) false = some t1 →
              (t1 < 0 ↔ XForces (roundAfter (b.set i j 'O') 'O' true)) := by
            intro i j hg t1 ht1
            have hc := emptyCount_set b i j 'O' hg (by decide)
            have hX1 : checkWin (b.set i j 'O') 'X' = false := by
              rw [checkWin_set_other b i j 'O' 'X' hg (by decide) (by decide)]
              exact hX
            exact (ih (b.set i j 'O') (d + 1) (by omega) (by omega) (by omega)).1 hX1 t1 ht1
          constructor
          · intro hlt i j hg
            obtain ⟨t1, ht1, hle1⟩ := hall i j hg
            exact (hchild i j hg t1 ht1).mp (by omega)
          · intro hf
            rcases hex with hex | ⟨i, j, hg, hp⟩
            · omega
            · exact (hchild i j hg _ hp).mpr (hf i j hg)

theorem rootScore_eq (b : Board) (p : Fin 3 × Fin 3) :
    minimaxPlain (b.set p.1 p.2 'O') 0 false = some (rootScore b p) := by
  obtain ⟨t, h1, h2, -, -⟩ := minimax_eq_plain (b.set p.1 p.2 'O') false
  have h3 := (minimax_root b p).1
  rw [h1] at h3
  cases h3
  exact h2

theorem rootScore_sign (b : Board) (p : Fin 3 × Fin 3) (hg : b.get p.1 p.2 = ' ')
    (hX : checkWin b 'X' = false) :
    rootScore b p < 0 ↔ XForces (roundAfter (b.set p.1 p.2 'O') 'O' true) := by
  have hc := emptyCount_set b p.1 p.2 'O' hg (by decide)
  have h9 := emptyCount_le b
  have hX1 : checkWin (b.set p.1 p.2 'O') 'X' = false := by
    rw [checkWin_set_other b p.1 p.2 'O' 'X' hg (by decide) (by decide)]
    exact hX
  exact (plain_sign 9 (b.set p.1 p.2 'O') 0 (by omega) (le_refl _) (by omega)).1 hX1 _
    (rootScore_eq b p)

theorem hard_full (b : Board) (hF : isBoardFull b = true) : computerMoveHard b = some b := by
  have hs : ∀ p : Fin 3 × Fin 3, b.get p.1 p.2 = ' ' →
      minimax (b.set p.1 p.2 'O') 0 false (-1000) 1000 =
        some (rootScore b p, b.set p.1 p.2 'O') := fun p _ => (minimax_root b p).1
  rcases hardCells_spec (fun b1 => minimax b1 0 false (-1000) 1000) b (rootScore b) hs allCells
    ⟨b, -1000, none⟩ rfl with ⟨h1, -⟩ | ⟨l1, p, l2, -, hg, -⟩
  · unfold computerMoveHard computerMoveHardWith
    rw [hardRows_eq_cells, cellsOf_range3, h1]
  · exact absurd hg ((isBoardFull_iff b).mp hF p.1 p.2)

theorem HardStep_inv (s s2 : Round) (h : HardStep s s2) :
    (s.playerTurn = true ∧ PlayStep s s2) ∨
      (s.roundOver = false ∧ s.playerTurn = false ∧
        ∃ r b1, computerMove s.board DifficultyLevel.HARD r = some b1 ∧
          s2 = roundAfter b1 'O' true) :=
  match h with
  | HardStep.player _ _ ht hp => Or.inl ⟨ht, hp⟩
  | HardStep.computer _ r b1 ho ht hm => Or.inr ⟨ho, ht, r, b1, hm, rfl⟩

/-- A pass of the loop against Hard keeps player 1 unable to force a line. -/
theorem safe_step (s s2 : Round) (hsafe : ¬ XForces s) (hstep : HardStep s s2) :
    ¬ XForces s2 := by
  have hX : checkWin s.board 'X' = false := by
    cases h : checkWin s.board 'X' with
    | false => rfl
    | true => exact absurd (XForces.won s h) hsafe
  rcases HardStep_inv s s2 hstep with ⟨ht, hp⟩ | ⟨hover, hturn, r, b1, hmove, rfl⟩
  · exact fun hf => hsafe (XForces.playerMove s s2 ht hp hf)
  · obtain ⟨b, turn, over⟩ := s
    simp only at hover hturn hmove hX
    subst hover hturn
    have hmove1 : computerMoveHard b = some b1 := hmove
    cases hF : isBoardFull b with
    | true =>
      rw [hard_full b hF] at hmove1
      cases hmove1
      apply not_XForces_over _ _ hX
      simp [roundAfter, hF]
    | false =>
      have hne := exists_empty_of_not_full b hF
      obtain ⟨p, hgp, hmv, hmax, -⟩ := hard_choice b hne
      rw [hmv] at hmove1
      cases hmove1
      have hsome : ∃ q : Fin 3 × Fin 3, b.get q.1 q.2 = ' ' ∧
          ¬ XForces (roundAfter (b.set q.1 q.2 'O') 'O' true) := by
        by_contra hcon
        apply hsafe
        rw [XForces_opponent_iff b hX hne]
        intro i j hg
        by_contra hnf
        exact hcon ⟨(i, j), hg, hnf⟩
      obtain ⟨q, hgq, hq⟩ := hsome
      have h1 : ¬ rootScore b q < 0 := fun h => hq ((rootScore_sign b q hgq hX).mp h)
      have h2 := hmax q hgq
      intro hf
      have h3 := (rootScore_sign b p hgp hX).mpr hf
      omega

theorem safe_reach (s s2 : Round) (hsafe : ¬ XForces s)
    (hreach : Relation.ReflTransGen HardStep s s2) : ¬ XForces s2 := by
  induction hreach with
  | refl => exact hsafe
  | tail _ hstep ih => exact safe_step _ _ ih hstep

theorem safe_no_line (s : Round) (hsafe : ¬ XForces s) : checkWin s.board 'X' = false := by
  cases h : checkWin s.board 'X' with
  | false => rfl
  | true => exact absurd (XForces.won s h) hsafe

/-- When player 2 is to move and has a move after which player 1 cannot force
a line, player 1 cannot force a line now. -/
theorem safe_of_safe_move (s : Round) (hturn : s.playerTurn = false)
    (h : ∃ s1, PlayStep s s1 ∧ ¬ XForces s1) : ¬ XForces s := by
  obtain ⟨s1, hstep, hs1⟩ := h
  intro hf
  rcases XForces_inv s hf with hw | ⟨ht, -⟩ | ⟨-, -, hall⟩
  · rcases (PlayStep_inv _ _ hstep).2 with ⟨ht, -⟩ | ⟨-, i, j, hg, rfl⟩
    · rw [hturn] at ht
      cases ht
    · have h1 : checkWin (s.board.set i j 'O') 'X' = false := safe_no_line _ hs1
      rw [checkWin_set_other s.board i j 'O' 'X' hg (by decide) (by decide), hw] at h1
      cases h1
  · rw [hturn] at ht
    cases ht
  · exact hs1 (hall s1 hstep)

/-! ## Deciding forced wins -/

theorem Mark.isBlank_ofChar (c : Char) : (Mark.ofChar c).isBlank = (c == ' ') := by
  by_cases h1 : c = ' '
  · subst h1; rfl
  · have e1 : (c == ' ') = false := by simpa using h1
    unfold Mark.ofChar
    rw [e1]
    simp only [Bool.false_eq_true, if_false]
    split
    · rfl
    · split <;> rfl

theorem Mark.isX_ofChar (c : Char) : (Mark.ofChar c).isX = (c == 'X') := by
  by_cases h1 : c = ' '
  · subst h1; rfl
  · have e1 : (c == ' ') = false := by simpa using h1
    unfold Mark.ofChar
    rw [e1]
    simp only [Bool.false_eq_true, if_false]
    by_cases h2 : c = 'X'
    · subst h2; rfl
    · have e2 : (c == 'X') = false := by simpa using h2
      rw [e2]
      simp only [Bool.false_eq_true, if_false]
      split <;> rfl

theorem Mark.isO_ofChar (c : Char) : (Mark.ofChar c).isO = (c == 'O') := by
  by_cases h1 : c = ' '
  · subst h1; rfl
  · have e1 : (c == ' ') = false := by simpa using h1
    unfold Mark.ofChar
    rw [e1]
    simp only [Bool.false_eq_true, if_false]
    by_cases h2 : c = 'X'
    · subst h2; rfl
    · have e2 : (c == 'X') = false := by simpa using h2
      rw [e2]
      simp only [Bool.false_eq_true, if_false]
      by_cases h3 : c = 'O'
      · subst h3; rfl
      · have e3 : (c == 'O') = false := by simpa using h3
        rw [e3]
        rfl

theorem checkWin_eq_any (b : Board) (symbol : Char) :
    checkWin b symbol =
      (((b.get 0 0 == symbol) && (b.get 0 1 == symbol) && (b.get 0 2 == symbol)) ||
        ((b.get 1 0 == symbol) && (b.get 1 1 == symbol) && (b.get 1 2 == symbol)) ||
        ((b.get 2 0 == symbol) && (b.get 2 1 == symbol) && (b.get 2 2 == symbol)) ||
        ((b.get 0 0 == symbol) && (b.get 1 0 == symbol) && (b.get 2 0 == symbol)) ||
        ((b.get 0 1 == symbol) && (b.get 1 1 == symbol) && (b.get 2 1 == symbol)) ||
        ((b.get 0 2 == symbol) && (b.get 1 2 == symbol) && (b.get 2 2 == symbol)) ||
        ((b.get 0 0 == symbol) && (b.get 1 1 == symbol) && (b.get 2 2 == symbol)) ||
        ((b.get 0 2 == symbol) && (b.get 1 1 == symbol) && (b.get 2 0 == symbol))) := by
  simp only [checkWin, checkWinLoop, range3]
  generalize (b.get 0 0 == symbol) = x00
  generalize (b.get 0 1 == symbol) = x01
  generalize (b.get 0 2 == symbol) = x02
  generalize (b.get 1 0 == symbol) = x10
  generalize (b.get 1 1 == symbol) = x11
  generalize (b.get 1 2 == symbol) = x12
  generalize (b.get 2 0 == symbol) = x20
  generalize (b.get 2 1 == symbol) = x21
  generalize (b.get 2 2 == symbol) = x22
  cases x00 <;> cases x01 <;> cases x02 <;> cases x10 <;> cases x11 <;> cases x12 <;>
    cases x20 <;> cases x21 <;> cases x22 <;> rfl

theorem isBoardFull_eq_all (b : Board) :
    isBoardFull b =
      !((b.get 0 0 == ' ') || (b.get 0 1 == ' ') || (b.get 0 2 == ' ') || (b.get 1 0 == ' ') ||
        (b.get 1 1 == ' ') || (b.get 1 2 == ' ') || (b.get 2 0 == ' ') || (b.get 2 1 == ' ') ||
        (b.get 2 2 == ' ')) := by
  simp only [isBoardFull, isBoardFullRows, isBoardFullCols, range3]
  generalize (b.get 0 0 == ' ') = x00
  generalize (b.get 0 1 == ' ') = x01
  generalize (b.get 0 2 == ' ') = x02
  generalize (b.get 1 0 == ' ') = x10
  generalize (b.get 1 1 == ' ') = x11
  generalize (b.get 1 2 == ' ') = x12
  generalize (b.get 2 0 == ' ') = x20
  generalize (b.get 2 1 == ' ') = x21
  generalize (b.get 2 2 == ' ') = x22
  cases x00 <;> cases x01 <;> cases x02 <;> cases x10 <;> cases x11 <;> cases x12 <;>
    cases x20 <;> cases x21 <;> cases x22 <;> rfl

theorem wins_ofBoard (b : Board) (f : Mark → Bool) (symbol : Char)
    (hf : ∀ c, f (Mark.ofChar c) = (c == symbol)) :
    (Grid.ofBoard b).wins f = checkWin b symbol := by
  rw [checkWin_eq_any]
  cases b
  simp only [Grid.wins, Grid.ofBoard, hf]
  rfl

theorem full_ofBoard (b : Board) : (Grid.ofBoard b).full = isBoardFull b := by
  rw [isBoardFull_eq_all]
  cases b
  simp only [Grid.full, Grid.ofBoard, Mark.isBlank_ofChar]
  rfl

theorem mem_moves (b : Board) (i j : Fin 3) (c : Char) :
    ((b.get i j == ' '), Grid.ofBoard (b.set i j c)) ∈ (Grid.ofBoard b).moves (Mark.ofChar c) := by
  cases b
  fin_cases i <;> fin_cases j <;>
    simp [Grid.moves, Grid.ofBoard, Board.get, Board.set, idx, Board.cell, Board.setCell,
      Mark.isBlank_ofChar]

theorem moves_mem (b : Board) (c : Char) (q : Bool × Grid)
    (hq : q ∈ (Grid.ofBoard b).moves (Mark.ofChar c)) :
    ∃ i j, q = ((b.get i j == ' '), Grid.ofBoard (b.set i j c)) := by
  cases b
  simp only [Grid.moves, Grid.ofBoard, List.mem_cons, List.mem_singleton, List.not_mem_nil,
    or_false, Mark.isBlank_ofChar] at hq
  rcases hq with rfl | rfl | rfl | rfl | rfl | rfl | rfl | rfl | rfl
  · exact ⟨1, 1, rfl⟩
  · exact ⟨0, 0, rfl⟩
  · exact ⟨0, 2, rfl⟩
  · exact ⟨2, 0, rfl⟩
  · exact ⟨2, 2, rfl⟩
  · exact ⟨0, 1, rfl⟩
  · exact ⟨1, 0, rfl⟩
  · exact ⟨1, 2, rfl⟩
  · exact ⟨2, 1, rfl⟩

theorem xForcesFast_succ (n : Nat) (g : Grid) (turn over : Bool) :
    xForcesFast (n + 1) g turn over =
      (g.wins Mark.isX ||
        (!over &&
          if turn then
            (g.moves Mark.x).any fun q =>
              q.1 && xForcesFast n q.2 false (q.2.wins Mark.isX || q.2.full)
          else
            (g.moves Mark.o).all fun q =>
              !q.1 || xForcesFast n q.2 true (q.2.wins Mark.isO || q.2.full))) := by
  rw [xForcesFast]

theorem xForcesFast_won (n : Nat) (g : Grid) (turn over : Bool) (h : g.wins Mark.isX = true) :
    xForcesFast n g turn over = true := by
  unfold xForcesFast
  rw [h]
  rfl

/-- The search finds every forced line. -/
theorem xForcesFast_of_XForces (s : Round) (h : XForces s) :
    ∀ n, emptyCount s.board ≤ n →
      xForcesFast n (Grid.ofBoard s.board) s.playerTurn s.roundOver = true := by
  induction h with
  | won s hw =>
    intro n _
    exact xForcesFast_won _ _ _ _ (by rw [wins_ofBoard _ _ 'X' Mark.isX_ofChar]; exact hw)
  | playerMove s s1 ht hstep _ ih =>
    intro n hn
    obtain ⟨hover, hcase⟩ := PlayStep_inv s s1 hstep
    rcases hcase with ⟨-, i, j, hg, rfl⟩ | ⟨ht2, -⟩
    · have hc := emptyCount_set s.board i j 'X' hg (by decide)
      obtain ⟨m, rfl⟩ : ∃ m, n = m + 1 := ⟨n - 1, by omega⟩
      have ih1 := ih m (by show emptyCount (s.board.set i j 'X') ≤ m; omega)
      rw [xForcesFast_succ, ht, hover]
      simp only [Bool.not_false, Bool.true_and, if_true, Bool.or_eq_true]
      right
      rw [List.any_eq_true]
      refine ⟨_, mem_moves s.board i j 'X', ?_⟩
      simp only [hg, beq_self_eq_true, Bool.true_and]
      rw [wins_ofBoard _ _ 'X' Mark.isX_ofChar, full_ofBoard]
      exact ih1
    · rw [ht] at ht2
      cases ht2
  | opponentMove s ht hex _ ih =>
    intro n hn
    obtain ⟨s0, hstep0⟩ := hex
    obtain ⟨hover, hcase⟩ := PlayStep_inv s s0 hstep0
    rcases hcase with ⟨ht2, -⟩ | ⟨-, i0, j0, hg0, -⟩
    · rw [ht] at ht2
      cases ht2
    · have hc0 := emptyCount_set s.board i0 j0 'O' hg0 (by decide)
      obtain ⟨m, rfl⟩ : ∃ m, n = m + 1 := ⟨n - 1, by omega⟩
      rw [xForcesFast_succ, ht, hover]
      simp only [Bool.not_false, Bool.true_and, Bool.false_eq_true, if_false, Bool.or_eq_true]
      right
      rw [List.all_eq_true]
      intro q hq
      obtain ⟨i, j, rfl⟩ := moves_mem s.board 'O' q hq
      by_cases hg : s.board.get i j = ' '
      · have hc := emptyCount_set s.board i j 'O' hg (by decide)
        have hstep : PlayStep s (roundAfter (s.board.set i j 'O') 'O' true) :=
          PlayStep.moveO s i j _ hover ht ((makeMove_true_iff _ _ i j 'O').mpr ⟨hg, rfl⟩)
        have ih1 := ih _ hstep m (by show emptyCount (s.board.set i j 'O') ≤ m; omega)
        simp only [hg, beq_self_eq_true, Bool.not_true, Bool.false_or]
        rw [wins_ofBoard _ _ 'O' Mark.isO_ofChar, full_ofBoard]
        exact ih1
      · have hg1 : (s.board.get i j == ' ') = false := by simpa using hg
        simp only [hg1, Bool.not_false, Bool.true_or]

theorem not_XForces_start : ¬ XForces roundStart := by
  intro h
  have h1 := xForcesFast_of_XForces roundStart h 9 (by decide)
  have h2 : xForcesFast 9 (Grid.ofBoard roundStart.board) roundStart.playerTurn
      roundStart.roundOver = false := by decide!
  rw [h2] at h1
  cases h1

/-! ## The Easy branch and boards without a move -/

theorem emptyCellsCols_eq_filter (b : Board) (i : Fin 3) :
    ∀ js : List (Fin 3), emptyCellsCols b i js =
      (js.map (Prod.mk i)).filter (fun p => b.get p.1 p.2 == ' ') := by
  intro js
  induction js with
  | nil => rfl
  | cons j rest ih =>
    simp only [emptyCellsCols, List.map_cons, List.filter_cons, ih]

theorem emptyCellsRows_eq_filter (b : Board) :
    ∀ rows : List (Fin 3), emptyCellsRows b rows =
      (cellsOf rows).filter (fun p => b.get p.1 p.2 == ' ') := by
  intro rows
  induction rows with
  | nil => rfl
  | cons i rest ih =>
    simp only [emptyCellsRows, cellsOf, List.filter_append, ih, emptyCellsCols_eq_filter]

theorem emptyCells_eq_filter (b : Board) :
    emptyCells b = allCells.filter (fun p => b.get p.1 p.2 == ' ') := by
  unfold emptyCells
  rw [emptyCellsRows_eq_filter, cellsOf_range3]

theorem placeRandom_get (b : Board) (cells : List (Fin 3 × Fin 3)) (r : Nat)
    (p : Fin 3 × Fin 3) (hp : cells[r % cells.length]? = some p) :
    placeRandom b cells r = b.set p.1 p.2 'O' := by
  have hne : cells ≠ [] := by
    intro h
    subst h
    simp at hp
  unfold placeRandom
  simp only [hne, ne_eq, not_false_eq_true, dite_true]
  have hlt : r % cells.length < cells.length := Nat.mod_lt _ (List.length_pos.mpr hne)
  rw [List.getElem?_eq_getElem hlt] at hp
  cases hp
  rfl

theorem placeRandom_nil (b : Board) (r : Nat) : placeRandom b [] r = b := by
  simp [placeRandom]

theorem allCells_getElem (k : Nat) (hk : k < 9) :
    allCells[k]? = some (⟨k / 3, by omega⟩, ⟨k % 3, by omega⟩) := by
  interval_cases k <;> rfl

theorem probeCells_full (symbol : Char) (b : Board) (hF : isBoardFull b = true)
    (l : List (Fin 3 × Fin 3)) : probeCells symbol l b = Ctl.next b := by
  rcases probeCells_spec symbol b l with ⟨h, -⟩ | ⟨l1, p, l2, -, hg, -⟩
  · exact h
  · exact absurd hg ((isBoardFull_iff b).mp hF p.1 p.2)

theorem filter_empty_full (b : Board) (hF : isBoardFull b = true) (l : List (Fin 3 × Fin 3)) :
    l.filter (fun p => b.get p.1 p.2 == ' ') = [] := by
  rw [List.filter_eq_nil_iff]
  intro p _
  have := (isBoardFull_iff b).mp hF p.1 p.2
  simpa using this

/-- The Medium branch when neither probing loop returns. -/
theorem medium_after_probes (b : Board) (r : Nat)
    (hO : ∀ i j, b.get i j = ' ' → checkWin (b.set i j 'O') 'O' = false)
    (hX : ∀ i j, b.get i j = ' ' → checkWin (b.set i j 'X') 'X' = false) :
    computerMoveMedium b r =
      if b.get 1 1 == ' ' then b.set 1 1 'O'
      else if availableCorners b ≠ [] then placeRandom b (availableCorners b) r
      else placeRandom b (emptyCells b) r := by
  have h1 : probeCells 'O' allCells b = Ctl.next b := by
    rcases probeCells_spec 'O' b allCells with ⟨h, -⟩ | ⟨l1, p, l2, -, hg, hw, -⟩
    · exact h
    · rw [hO p.1 p.2 hg] at hw
      cases hw
  have h2 : probeCells 'X' allCells b = Ctl.next b := by
    rcases probeCells_spec 'X' b allCells with ⟨h, -⟩ | ⟨l1, p, l2, -, hg, hw, -⟩
    · exact h
    · rw [hX p.1 p.2 hg] at hw
      cases hw
  unfold computerMoveMedium
  rw [tryWinRows_eq_cells, cellsOf_range3, h1]
  simp only
  rw [tryBlockRows_eq_cells, cellsOf_range3, h2]

theorem computerMove_full (b : Board) (d : DifficultyLevel) (r : Nat)
    (hF : isBoardFull b = true) : computerMove b d r = some b := by
  have he : emptyCells b = [] := by
    rw [emptyCells_eq_filter]
    exact filter_empty_full b hF _
  cases d with
  | EASY =>
    show some (placeRandom b (emptyCells b) r) = _
    rw [he, placeRandom_nil]
  | MEDIUM =>
    show some (computerMoveMedium b r) = _
    have hc : (b.get 1 1 == ' ') = false := by
      simpa using (isBoardFull_iff b).mp hF 1 1
    have ha : availableCorners b = [] := filter_empty_full b hF _
    rw [medium_after_probes b r
      (fun i j hg => absurd hg ((isBoardFull_iff b).mp hF i j))
      (fun i j hg => absurd hg ((isBoardFull_iff b).mp hF i j)), hc, ha, he]
    simp [placeRandom_nil]
  | HARD => exact hard_full b hF

theorem computerMove_returns (b : Board) (d : DifficultyLevel) (r : Nat) :
    ∃ b1, computerMove b d r = some b1 := by
  cases d with
  | EASY => exact ⟨_, rfl⟩
  | MEDIUM => exact ⟨_, rfl⟩
  | HARD =>
    cases hF : isBoardFull b with
    | true => exact ⟨b, hard_full b hF⟩
    | false =>
      obtain ⟨p, -, h, -⟩ := hard_choice b (exists_empty_of_not_full b hF)
      exact ⟨_, h⟩

/-! ## Exchanging the roles -/

theorem swapChar_swapChar (c : Char) : swapChar (swapChar c) = c := by
  by_cases h1 : c = 'X'
  · subst h1; rfl
  · by_cases h2 : c = 'O'
    · subst h2; rfl
    · have e1 : (c == 'X') = false := by simpa using h1
      have e2 : (c == 'O') = false := by simpa using h2
      simp [swapChar, e1, e2]

theorem swapChar_beq_blank (c : Char) : (swapChar c == ' ') = (c == ' ') := by
  by_cases h1 : c = 'X'
  · subst h1; rfl
  · by_cases h2 : c = 'O'
    · subst h2; rfl
    · have e1 : (c == 'X') = false := by simpa using h1
      have e2 : (c == 'O') = false := by simpa using h2
      simp [swapChar, e1, e2]

theorem swapChar_beq_X (c : Char) : (swapChar c == 'X') = (c == 'O') := by
  by_cases h1 : c = 'X'
  · subst h1; rfl
  · by_cases h2 : c = 'O'
    · subst h2; rfl
    · have e1 : (c == 'X') = false := by simpa using h1
      have e2 : (c == 'O') = false := by simpa using h2
      simp [swapChar, e1, e2]

theorem swapChar_beq_O (c : Char) : (swapChar c == 'O') = (c == 'X') := by
  by_cases h1 : c = 'X'
  · subst h1; rfl
  · by_cases h2 : c = 'O'
    · subst h2; rfl
    · have e1 : (c == 'X') = false := by simpa using h1
      have e2 : (c == 'O') = false := by simpa using h2
      simp [swapChar, e1, e2]

theorem swapBoard_swapBoard (b : Board) : swapBoard (swapBoard b) = b := by
  cases b
  simp [swapBoard, swapChar_swapChar]

theorem get_swapBoard (b : Board) (i j : Fin 3) :
    (swapBoard b).get i j = swapChar (b.get i j) := by
  cases b
  fin_cases i <;> fin_cases j <;> rfl

theorem swapBoard_set (b : Board) (i j : Fin 3) (c : Char) :
    swapBoard (b.set i j c) = (swapBoard b).set i j (swapChar c) := by
  cases b
  fin_cases i <;> fin_cases j <;> rfl

theorem get_swapBoard_blank (b : Board) (i j : Fin 3) :
    (swapBoard b).get i j = ' ' ↔ b.get i j = ' ' := by
  rw [get_swapBoard]
  have := swapChar_beq_blank (b.get i j)
  constructor
  · intro h
    rw [h] at this
    simpa using this.symm
  · intro h
    rw [h]
    rfl

theorem checkWin_swapBoard_X (b : Board) : checkWin (swapBoard b) 'X' = checkWin b 'O' := by
  rw [checkWin_eq_any, checkWin_eq_any]
  simp only [get_swapBoard, swapChar_beq_X]

theorem checkWin_swapBoard_O (b : Board) : checkWin (swapBoard b) 'O' = checkWin b 'X' := by
  rw [checkWin_eq_any, checkWin_eq_any]
  simp only [get_swapBoard, swapChar_beq_O]

theorem isBoardFull_swapBoard (b : Board) : isBoardFull (swapBoard b) = isBoardFull b := by
  rw [isBoardFull_eq_all, isBoardFull_eq_all]
  simp only [get_swapBoard, swapChar_beq_blank]

theorem swap_roundAfter_X (b1 : Board) (t : Bool) :
    (roundAfter b1 'X' t).swap = roundAfter (swapBoard b1) 'O' (!t) := by
  simp only [Round.swap, roundAfter, checkWin_swapBoard_O, isBoardFull_swapBoard]

theorem swap_roundAfter_O (b1 : Board) (t : Bool) :
    (roundAfter b1 'O' t).swap = roundAfter (swapBoard b1) 'X' (!t) := by
  simp only [Round.swap, roundAfter, checkWin_swapBoard_X, isBoardFull_swapBoard]

theorem SelfInv_roundAfter (b1 : Board) (symbol : Char) (t : Bool)
    (h1 : ¬ XForces (roundAfter b1 symbol t)) (h2 : ¬ XForces (roundAfter b1 symbol t).swap)
    (hs : symbol = 'X' ∨ symbol = 'O') : SelfInv (roundAfter b1 symbol t) := by
  refine ⟨h1, h2, ?_, ?_⟩
  · intro hover
    have : (checkWin b1 symbol || isBoardFull b1) = false := hover
    simp only [Bool.or_eq_false_iff] at this
    exact this.2
  · intro hover
    have : (checkWin b1 symbol || isBoardFull b1) = true := hover
    simp only [Bool.or_eq_true] at this
    rcases this with h | h
    · rcases hs with rfl | rfl
      · exact Or.inl h
      · exact Or.inr (Or.inl h)
    · exact Or.inr (Or.inr h)

/-- A pass of the loop between two Hard players on a round that is not over:
one more cell is filled and the invariant holds again. -/
theorem selfPlayStep_spec (r : Nat) (s : Round) (hinv : SelfInv s) (hover : s.roundOver = false) :
    ∃ s1, selfPlayStep r s = some s1 ∧ SelfInv s1 ∧
      emptyCount s1.board + 1 = emptyCount s.board := by
  obtain ⟨hsafe, hsafe2, hnf, -⟩ := hinv
  obtain ⟨b, turn, over⟩ := s
  simp only at hover
  subst hover
  have hF : isBoardFull b = false := hnf rfl
  cases turn with
  | true =>
    obtain ⟨i0, j0, hg0⟩ := exists_empty_of_not_full b hF
    obtain ⟨p, hgp1, hmv, -, -⟩ :=
      hard_choice (swapBoard b) ⟨i0, j0, (get_swapBoard_blank b i0 j0).mpr hg0⟩
    have hgp : b.get p.1 p.2 = ' ' := (get_swapBoard_blank b p.1 p.2).mp hgp1
    have hmove : hardAsX b r = some (b.set p.1 p.2 'X') := by
      show (computerMoveHard (swapBoard b)).map swapBoard = _
      rw [hmv]
      show some (swapBoard ((swapBoard b).set p.1 p.2 'O')) = _
      rw [swapBoard_set, swapBoard_swapBoard]
      rfl
    refine ⟨roundAfter (b.set p.1 p.2 'X') 'X' false, ?_, ?_,
      emptyCount_set b p.1 p.2 'X' hgp (by decide)⟩
    · simp only [selfPlayStep, Bool.false_eq_true, if_false, if_true, hmove, Option.map_some']
    · apply SelfInv_roundAfter _ _ _ _ _ (Or.inl rfl)
      · exact safe_step _ _ hsafe (HardStep.player _ _ rfl (PlayStep_X b p.1 p.2 hgp))
      · rw [swap_roundAfter_X, swapBoard_set]
        exact safe_step _ _ hsafe2
          (HardStep.computer ⟨swapBoard b, false, false⟩ r _ rfl rfl hmv)
  | false =>
    obtain ⟨p, hgp, hmv, -, -⟩ := hard_choice b (exists_empty_of_not_full b hF)
    have hmove : computerMove b DifficultyLevel.HARD r = some (b.set p.1 p.2 'O') := hmv
    refine ⟨roundAfter (b.set p.1 p.2 'O') 'O' true, ?_, ?_,
      emptyCount_set b p.1 p.2 'O' hgp (by decide)⟩
    · simp only [selfPlayStep, Bool.false_eq_true, if_false, hmove, Option.map_some']
    · apply SelfInv_roundAfter _ _ _ _ _ (Or.inr rfl)
      · exact safe_step _ _ hsafe (HardStep.computer ⟨b, false, false⟩ r _ rfl rfl hmove)
      · rw [swap_roundAfter_O, swapBoard_set]
        exact safe_step _ _ hsafe2 (HardStep.player _ _ rfl
          (PlayStep_X (swapBoard b) p.1 p.2 ((get_swapBoard_blank b p.1 p.2).mpr hgp)))

theorem selfPlay_over (draws : Nat → Nat) (s : Round) (hover : s.roundOver = true) :
    ∀ n, selfPlay draws n s = some s := by
  intro n
  induction n with
  | zero => rfl
  | succ n ih => simp only [selfPlay, selfPlayStep, hover, if_true, ih]

theorem selfPlay_spec (draws : Nat → Nat) :
    ∀ (n : Nat) (s : Round), SelfInv s → emptyCount s.board ≤ n →
      ∃ s2, selfPlay draws n s = some s2 ∧ SelfInv s2 ∧ s2.roundOver = true := by
  intro n
  induction n with
  | zero =>
    intro s hinv hle
    refine ⟨s, rfl, hinv, ?_⟩
    cases hover : s.roundOver with
    | true => rfl
    | false =>
      have h1 := hinv.2.2.1 hover
      rw [isBoardFull_of_emptyCount s.board (by omega)] at h1
      cases h1
  | succ n ih =>
    intro s hinv hle
    cases hover : s.roundOver with
    | true => exact ⟨s, selfPlay_over draws s hover _, hinv, hover⟩
    | false =>
      obtain ⟨s1, h1, hinv1, hc⟩ := selfPlayStep_spec (draws n) s hinv hover
      obtain ⟨s2, h2, hinv2, hover2⟩ := ih s1 hinv1 (by omega)
      exact ⟨s2, by simp only [selfPlay, h1, h2], hinv2, hover2⟩

theorem not_XForces_start_swapped : ¬ XForces roundStart.swap := by
  intro h
  have h1 := xForcesFast_of_XForces roundStart.swap h 9 (by decide)
  have h2 : xForcesFast 9 (Grid.ofBoard roundStart.swap.board) roundStart.swap.playerTurn
      roundStart.swap.roundOver = false := by decide!
  rw [h2] at h1
  cases h1

theorem SelfInv_start : SelfInv roundStart :=
  ⟨not_XForces_start, not_XForces_start_swapped, fun _ => by decide, fun h => by cases h⟩

/-! ## What a move of the computer changes -/

/-- Random placement over a list of empty cells that is not empty puts `'O'`
on one of its cells. -/
theorem placeRandom_filter (b : Board) (l : List (Fin 3 × Fin 3)) (r : Nat)
    (hne : l.filter (fun p => b.get p.1 p.2 == ' ') ≠ []) :
    ∃ p : Fin 3 × Fin 3, b.get p.1 p.2 = ' ' ∧
      placeRandom b (l.filter (fun p => b.get p.1 p.2 == ' ')) r = b.set p.1 p.2 'O' := by
  have hlt := Nat.mod_lt r (List.length_pos.mpr hne)
  have hget := List.getElem?_eq_getElem hlt
  have hmem := List.getElem_mem hlt
  refine ⟨_, ?_, placeRandom_get b _ r _ hget⟩
  have := (List.mem_filter.mp hmem).2
  simpa using this

/-- Every difficulty, on a board with an empty cell: `'O'` goes to one empty
cell. -/
theorem computerMove_places_one (b : Board) (d : DifficultyLevel) (r : Nat)
    (h : ∃ i j, b.get i j = ' ') :
    ∃ p : Fin 3 × Fin 3, b.get p.1 p.2 = ' ' ∧ computerMove b d r = some (b.set p.1 p.2 'O') := by
  obtain ⟨i0, j0, hg0⟩ := h
  have hcells : allCells.filter (fun p => b.get p.1 p.2 == ' ') ≠ [] := by
    intro he
    have hm : ((i0, j0) : Fin 3 × Fin 3) ∈ allCells.filter (fun p => b.get p.1 p.2 == ' ') :=
      List.mem_filter.mpr ⟨mem_allCells _, by simpa using hg0⟩
    rw [he] at hm
    cases hm
  cases d with
  | EASY =>
    obtain ⟨p, hp, hmv⟩ := placeRandom_filter b allCells r hcells
    refine ⟨p, hp, ?_⟩
    show some (placeRandom b (emptyCells b) r) = _
    rw [emptyCells_eq_filter, hmv]
  | MEDIUM =>
    show ∃ p : Fin 3 × Fin 3, b.get p.1 p.2 = ' ' ∧
      some (computerMoveMedium b r) = some (b.set p.1 p.2 'O')
    rcases probeCells_spec 'O' b allCells with ⟨h1, hO⟩ | ⟨l1, p, l2, -, hg, -, h1, -⟩
    · rcases probeCells_spec 'X' b allCells with ⟨h2, hX⟩ | ⟨l1, p, l2, -, hg, -, h2, -⟩
      · have hO1 : ∀ i j, b.get i j = ' ' → checkWin (b.set i j 'O') 'O' = false :=
          fun i j hg => hO (i, j) (mem_allCells _) hg
        have hX1 : ∀ i j, b.get i j = ' ' → checkWin (b.set i j 'X') 'X' = false :=
          fun i j hg => hX (i, j) (mem_allCells _) hg
        rw [medium_after_probes b r hO1 hX1]
        by_cases hc : b.get 1 1 = ' '
        · refine ⟨(1, 1), hc, ?_⟩
          rw [hc]
          rfl
        · have hc1 : (b.get 1 1 == ' ') = false := by simpa using hc
          simp only [hc1, Bool.false_eq_true, if_false]
          by_cases ha : availableCorners b = []
          · obtain ⟨p, hp, hmv⟩ := placeRandom_filter b allCells r hcells
            refine ⟨p, hp, ?_⟩
            simp only [ha, ne_eq, not_true_eq_false, if_false]
            rw [emptyCells_eq_filter, hmv]
          · obtain ⟨p, hp, hmv⟩ := placeRandom_filter b corners r ha
            refine ⟨p, hp, ?_⟩
            simp only [ha, ne_eq, not_false_eq_true, if_true]
            exact congrArg some hmv
      · refine ⟨p, hg, ?_⟩
        unfold computerMoveMedium
        rw [tryWinRows_eq_cells, cellsOf_range3, h1]
        simp only
        rw [tryBlockRows_eq_cells, cellsOf_range3, h2]
    · refine ⟨p, hg, ?_⟩
      unfold computerMoveMedium
      rw [tryWinRows_eq_cells, cellsOf_range3, h1]
  | HARD =>
    obtain ⟨p, hp, hmv, -, -⟩ := hard_choice b ⟨i0, j0, hg0⟩
    exact ⟨p, hp, hmv⟩

/-! ## The depth of the calls of the search -/

/-- C1. Pruning never changes the score: for every board (whatever its cells
hold, so in particular with cells in `{' ', 'X', 'O'}`) and either side to
move, `minimax(board, 0, isMaximizing)` with the default window `-1000, 1000`
returns, and its score is exactly the score of the unpruned search; hence the
Hard branch of `computerMove` leaves the same board as it would with the
unpruned search. -/
theorem pruning_preserves_score (b : Board) (isMaximizing : Bool) (r : Nat) :
    (∃ s, minimax b 0 isMaximizing (-1000) 1000 = some (s, b) ∧
      minimaxPlain b 0 isMaximizing = some s) ∧
    computerMove b DifficultyLevel.HARD r = computerMoveHardPlain b := by
  constructor
  · obtain ⟨t, h1, h2, -, -⟩ := minimax_eq_plain b isMaximizing
    exact ⟨t, h1, h2⟩
  · have hfun : (fun b1 => minimax b1 0 false (-1000) 1000) =
        (fun b1 => (minimaxPlain b1 0 false).map (fun s => (s, b1))) := by
      funext b1
      obtain ⟨t, h1, h2, -, -⟩ := minimax_eq_plain b1 false
      rw [h1, h2]
      rfl
    show computerMoveHard b = computerMoveHardPlain b
    unfold computerMoveHard computerMoveHardPlain
    rw [hfun]

/-- C2. For every board, every depth, either side and every `alpha` and `beta`,
`minimax` returns and the board it leaves is the board it was given. -/
theorem minimax_restores_board (b : Board) (depth : Int) (isMaximizing : Bool)
    (alpha beta : Int) : ∃ s, minimax b depth isMaximizing alpha beta = some (s, b) := by
  obtain ⟨s, _, h, _, _⟩ := minimaxFuel_spec 9 b depth isMaximizing alpha beta (emptyCount_le b)
  exact ⟨s, h⟩

/-- C3. Hard never loses from a position where a non-losing move exists. For
every round state with `'O'` to move (so in particular every board reached by
alternating legal play, `'X'` first) in which some legal move of `'O'` leads to
a state from which player 1 cannot force a line, in every continuation where
`'X'` plays arbitrary legal moves and `'O'` always replies with
`computerMove(board, HARD)`, no state has a complete line of `'X'`. In
particular this holds of every state of a round started on the empty board
with `'X'` moving first. -/
theorem hard_never_loses :
    (∀ s : Round, s.playerTurn = false → (∃ s1, PlayStep s s1 ∧ ¬ XForces s1) →
      ∀ s2, Relation.ReflTransGen HardStep s s2 → checkWin s2.board 'X' = false) ∧
    (∀ s2, Relation.ReflTransGen HardStep roundStart s2 → checkWin s2.board 'X' = false) := by
  constructor
  · intro s hturn hex s2 hreach
    exact safe_no_line s2 (safe_reach s s2 (safe_of_safe_move s hturn hex) hreach)
  · intro s2 hreach
    exact safe_no_line s2 (safe_reach roundStart s2 not_XForces_start hreach)

theorem hard_never_loses_witness :
    (⟨lateBoard, false, false⟩ : Round).playerTurn = false ∧
    (∃ s1, PlayStep ⟨lateBoard, false, false⟩ s1 ∧ ¬ XForces s1) ∧
    Relation.ReflTransGen HardStep ⟨lateBoard, false, false⟩
      (roundAfter (lateBoard.set 1 2 'O') 'O' true) ∧
    checkWin (roundAfter (lateBoard.set 1 2 'O') 'O' true).board 'X' = false ∧
    Relation.ReflTransGen HardStep roundStart roundStart ∧
    checkWin roundStart.board 'X' = false := by
  have hex : ∃ s1, PlayStep ⟨lateBoard, false, false⟩ s1 ∧ ¬ XForces s1 := by
    refine ⟨_, PlayStep_O lateBoard 1 2 (by decide), ?_⟩
    intro h
    have h1 := xForcesFast_of_XForces _ h 9 (by decide)
    revert h1
    decide
  have hmove : computerMove lateBoard DifficultyLevel.HARD 0 = some (lateBoard.set 1 2 'O') := by
    decide
  have hreach : Relation.ReflTransGen HardStep ⟨lateBoard, false, false⟩
      (roundAfter (lateBoard.set 1 2 'O') 'O' true) :=
    Relation.ReflTransGen.single (HardStep.computer ⟨lateBoard, false, false⟩ 0 _ rfl rfl hmove)
  exact ⟨rfl, hex, hreach, hard_never_loses.1 _ rfl hex _ hreach, Relation.ReflTransGen.refl,
    hard_never_loses.2 _ Relation.ReflTransGen.refl⟩

/-- C4. Hard wins at once when it can: on every board with an empty cell where
placing `'O'` completes a line for `'O'`, the board after
`computerMove(board, HARD)` has a complete line of `'O'`. -/
theorem hard_wins_immediately (b : Board) (r : Nat)
    (h : ∃ i j, b.get i j = ' ' ∧ checkWin (b.set i j 'O') 'O' = true) :
    ∃ b1, computerMove b DifficultyLevel.HARD r = some b1 ∧ checkWin b1 'O' = true := by
  obtain ⟨i, j, hg, hw⟩ := h
  obtain ⟨p, hgp, hmove, hmax, -⟩ := hard_choice b ⟨i, j, hg⟩
  refine ⟨b.set p.1 p.2 'O', hmove, ?_⟩
  have h10 : rootScore b (i, j) = 10 := rootScore_win b (i, j) hw
  have hle := hmax (i, j) hg
  cases hwp : checkWin (b.set p.1 p.2 'O') 'O' with
  | true => rfl
  | false =>
    have := rootScore_not_win b p hgp hwp
    omega

theorem hard_wins_immediately_witness :
    (∃ i j, scenarioBoard.get i j = ' ' ∧ checkWin (scenarioBoard.set i j 'O') 'O' = true) ∧
    ∃ b1, computerMove scenarioBoard DifficultyLevel.HARD 0 = some b1 ∧ checkWin b1 'O' = true :=
  ⟨⟨1, 2, by decide, by decide⟩, hard_wins_immediately scenarioBoard 0 ⟨1, 2, by decide, by decide⟩⟩

/-- C5. On every board with an empty cell, `computerMove(board, HARD)` puts
`'O'` on an empty cell `(i, j)` whose score `s` (the result of `minimax` on the
board with `'O'` there, depth `0`, minimizing side to move) is the greatest
among the empty cells, and every empty cell before `(i, j)` in row-major order
has a strictly smaller score: the first of the best cells is taken. -/
theorem hard_plays_first_best (b : Board) (r : Nat) (h : ∃ i j, b.get i j = ' ') :
    ∃ i j s, b.get i j = ' ' ∧ computerMove b DifficultyLevel.HARD r = some (b.set i j 'O') ∧
      minimax (b.set i j 'O') 0 false (-1000) 1000 = some (s, b.set i j 'O') ∧
      ∀ i1 j1, b.get i1 j1 = ' ' →
        ∃ s1, minimax (b.set i1 j1 'O') 0 false (-1000) 1000 = some (s1, b.set i1 j1 'O') ∧
          s1 ≤ s ∧ (cellBefore (i1, j1) (i, j) → s1 < s) := by
  obtain ⟨p, hgp, hmove, hmax, hfirst⟩ := hard_choice b h
  refine ⟨p.1, p.2, rootScore b p, hgp, hmove, (minimax_root b p).1, ?_⟩
  intro i1 j1 hg1
  exact ⟨rootScore b (i1, j1), (minimax_root b (i1, j1)).1, hmax (i1, j1) hg1,
    fun hb => hfirst (i1, j1) hb hg1⟩

theorem hard_plays_first_best_witness :
    (∃ i j, emptyBoard.get i j = ' ') ∧
    ∃ i j s, emptyBoard.get i j = ' ' ∧
      computerMove emptyBoard DifficultyLevel.HARD 0 = some (emptyBoard.set i j 'O') ∧
      minimax (emptyBoard.set i j 'O') 0 false (-1000) 1000 = some (s, emptyBoard.set i j 'O') ∧
      ∀ i1 j1, emptyBoard.get i1 j1 = ' ' →
        ∃ s1, minimax (emptyBoard.set i1 j1 'O') 0 false (-1000) 1000 =
            some (s1, emptyBoard.set i1 j1 'O') ∧
          s1 ≤ s ∧ (cellBefore (i1, j1) (i, j) → s1 < s) :=
  ⟨⟨0, 0, by decide⟩, hard_plays_first_best emptyBoard 0 ⟨0, 0, by decide⟩⟩

/-- C6. For every board and every symbol, `checkWin(board, symbol)` is true
exactly when one of the eight lines (three rows, three columns, two diagonals)
has all three cells equal to `symbol`. -/
theorem checkWin_iff_line (b : Board) (symbol : Char) :
    checkWin b symbol = true ↔
      (b.get 0 0 = symbol ∧ b.get 0 1 = symbol ∧ b.get 0 2 = symbol) ∨
      (b.get 1 0 = symbol ∧ b.get 1 1 = symbol ∧ b.get 1 2 = symbol) ∨
      (b.get 2 0 = symbol ∧ b.get 2 1 = symbol ∧ b.get 2 2 = symbol) ∨
      (b.get 0 0 = symbol ∧ b.get 1 0 = symbol ∧ b.get 2 0 = symbol) ∨
      (b.get 0 1 = symbol ∧ b.get 1 1 = symbol ∧ b.get 2 1 = symbol) ∨
      (b.get 0 2 = symbol ∧ b.get 1 2 = symbol ∧ b.get 2 2 = symbol) ∨
      (b.get 0 0 = symbol ∧ b.get 1 1 = symbol ∧ b.get 2 2 = symbol) ∨
      (b.get 0 2 = symbol ∧ b.get 1 1 = symbol ∧ b.get 2 0 = symbol) :=
  checkWin_iff b symbol

/-- C7. For every board, every in-range position (`row = i`, `col = j` with
`i, j` in `0..2`) and every symbol, `makeMove` returns `true` exactly when the
cell was `' '`; when it returns `true` the new board has `symbol` in that cell
and every other cell as before; when it returns `false` the board is
unchanged. -/
theorem makeMove_in_range (b : Board) (i j : Fin 3) (symbol : Char) :
    ∃ r b1, makeMove b (i.val : Int) (j.val : Int) symbol = some (r, b1) ∧
      (r = true ↔ b.get i j = ' ') ∧
      (r = true → b1.get i j = symbol ∧
        ∀ i1 j1, ¬ (i1 = i ∧ j1 = j) → b1.get i1 j1 = b.get i1 j1) ∧
      (r = false → b1 = b) := by
  by_cases hg : b.get i j = ' '
  · refine ⟨true, b.set i j symbol, (makeMove_true_iff b _ i j symbol).mpr ⟨hg, rfl⟩,
      by simp [hg], fun _ => ⟨get_set_same _ _ _ _, fun i1 j1 h => get_set_ne _ _ _ _ _ _ h⟩,
      by simp⟩
  · refine ⟨false, b, ?_, by simp [hg], by simp, fun _ => rfl⟩
    unfold makeMove
    rw [cellOffset_in_range]
    have hg1 : (b.cell (idx i j) == ' ') = false := by simpa using hg
    simp [hg1]

/-- C8, as the claim states it, fails: `makeMove` does not test the range. On
the empty board the out-of-range position `(0, 3)` addresses the char of cell
`(1, 0)`; the call returns `true` and writes the symbol there. -/
theorem makeMove_out_of_range_counterexample :
    makeMove emptyBoard 0 3 'X' = some (true, emptyBoard.set 1 0 'X') ∧
      makeMove emptyBoard 0 3 'X' ≠ some (false, emptyBoard) := by
  decide

/-- C8, amended. `makeMove` makes no range test. For every out-of-range
`(row, col)`, `isValidPosition` is false and `getPlayerMove`, which hands
`playGame` the positions it passes to `makeMove`, never returns it, whatever
is typed. If `makeMove` is called with it all the same and `board[row][col]`
addresses one of the nine chars of the array (the char at offset
`3 * row + col`), that char is treated as the cell: the call returns `true`,
writing `symbol` there and nothing else, exactly when that char is `' '`, and
it returns `false`, with the board unchanged, exactly when that char is
occupied. -/
theorem out_of_range_rejected_by_caller (row col : Int)
    (h : ¬ (0 ≤ row ∧ row ≤ 2 ∧ 0 ≤ col ∧ col ≤ 2)) :
    isValidPosition row col = false ∧
      (∀ inputs, getPlayerMove inputs ≠ some (row, col)) ∧
      (∀ (b : Board) (symbol : Char) (k : Fin 9), (k.val : Int) = 3 * row + col →
        (b.cell k = ' ' → makeMove b row col symbol = some (true, b.setCell k symbol)) ∧
        (b.cell k ≠ ' ' → makeMove b row col symbol = some (false, b))) := by
  have hv : isValidPosition row col = false := by
    unfold isValidPosition
    simp only [Bool.and_eq_false_iff, decide_eq_false_iff_not]
    omega
  refine ⟨hv, ?_, ?_⟩
  · intro inputs
    induction inputs with
    | nil => simp [getPlayerMove]
    | cons p rest ih =>
      obtain ⟨r1, c1⟩ := p
      unfold getPlayerMove
      by_cases hp : isValidPosition r1 c1 = true
      · simp only [hp, if_true]
        intro he
        cases he
        rw [hv] at hp
        cases hp
      · simp only [hp, if_false]
        exact ih
  · intro b symbol k hk
    have hoff : cellOffset row col = some k := by
      unfold cellOffset
      have hr : 0 ≤ 3 * row + col ∧ 3 * row + col < 9 := by
        have := k.isLt
        omega
      rw [dif_pos hr]
      congr 1
      apply Fin.ext
      show (3 * row + col).toNat = k.val
      omega
    unfold makeMove
    rw [hoff]
    constructor
    · intro hc
      simp only [hc, beq_self_eq_true, if_true]
    · intro hc
      have hc1 : (b.cell k == ' ') = false := by simpa using hc
      simp only [hc1, Bool.false_eq_true, if_false]

theorem out_of_range_rejected_by_caller_witness :
    ¬ (0 ≤ (0 : Int) ∧ (0 : Int) ≤ 2 ∧ 0 ≤ (3 : Int) ∧ (3 : Int) ≤ 2) ∧
      (((3 : Fin 9).val : Int) = 3 * 0 + 3) ∧
      emptyBoard.cell 3 = ' ' ∧ scenarioBoard.cell 3 ≠ ' ' ∧
      isValidPosition 0 3 = false ∧
      (∀ inputs, getPlayerMove inputs ≠ some (0, 3)) ∧
      makeMove emptyBoard 0 3 'X' = some (true, emptyBoard.setCell 3 'X') ∧
      makeMove scenarioBoard 0 3 'X' = some (false, scenarioBoard) :=
  ⟨by decide, by decide, by decide, by decide,
    (out_of_range_rejected_by_caller 0 3 (by decide)).1,
    (out_of_range_rejected_by_caller 0 3 (by decide)).2.1,
    ((out_of_range_rejected_by_caller 0 3 (by decide)).2.2 emptyBoard 'X' 3 (by decide)).1
      (by decide),
    ((out_of_range_rejected_by_caller 0 3 (by decide)).2.2 scenarioBoard 'X' 3 (by decide)).2
      (by decide)⟩

/-- C9, as the claim states it, fails: on `[[X,X,_],[O,O,_],[_,_,_]]` the
Medium branch puts `'O'` on `(1, 2)`, completing its own row, and leaves
`(0, 2)` empty. -/
theorem medium_scenario_counterexample :
    computerMove scenarioBoard DifficultyLevel.MEDIUM 0 = some (scenarioBoard.set 1 2 'O') ∧
      computerMove scenarioBoard DifficultyLevel.MEDIUM 0 ≠ some (scenarioBoard.set 0 2 'O') := by
  decide

/-- C9, amended. On `[[X,X,_],[O,O,_],[_,_,_]]`, whatever `rand()` returns, the
Medium branch puts `'O'` on `(1, 2)`: the result is `[[X,X,_],[O,O,O],[_,_,_]]`,
a win for `'O'`, with `(0, 2)` still empty. -/
theorem medium_scenario_wins (r : Nat) :
    computerMove scenarioBoard DifficultyLevel.MEDIUM r =
        some ⟨'X', 'X', ' ', 'O', 'O', 'O', ' ', ' ', ' '⟩ ∧
      checkWin ⟨'X', 'X', ' ', 'O', 'O', 'O', ' ', ' ', ' '⟩ 'O' = true := by
  constructor
  · rfl
  · decide

/-- C10. Medium, first priority: on every board with an empty cell where
placing `'O'` completes a line for `'O'`, `computerMove(board, MEDIUM)` puts
`'O'` on the first such cell in row-major order and changes nothing else (the
result is the board with that one cell set), whatever `rand()` returns. -/
theorem medium_takes_first_win (b : Board) (r : Nat)
    (h : ∃ i j, b.get i j = ' ' ∧ checkWin (b.set i j 'O') 'O' = true) :
    ∃ i j, b.get i j = ' ' ∧ checkWin (b.set i j 'O') 'O' = true ∧
      (∀ i1 j1, cellBefore (i1, j1) (i, j) → b.get i1 j1 = ' ' →
        checkWin (b.set i1 j1 'O') 'O' = false) ∧
      computerMove b DifficultyLevel.MEDIUM r = some (b.set i j 'O') := by
  obtain ⟨i0, j0, hg0, hw0⟩ := h
  rcases probeCells_spec 'O' b allCells with ⟨-, h2⟩ | ⟨l1, p, l2, he, hg, hw, h1, h2⟩
  · have := h2 (i0, j0) (mem_allCells _) hg0
    rw [hw0] at this
    cases this
  · refine ⟨p.1, p.2, hg, hw, ?_, ?_⟩
    · intro i1 j1 hb hg1
      exact h2 (i1, j1) (before_mem_front l1 l2 p (i1, j1) he hb) hg1
    · show some (computerMoveMedium b r) = _
      unfold computerMoveMedium
      rw [tryWinRows_eq_cells, cellsOf_range3, h1]

theorem medium_takes_first_win_witness :
    (∃ i j, scenarioBoard.get i j = ' ' ∧ checkWin (scenarioBoard.set i j 'O') 'O' = true) ∧
    ∃ i j, scenarioBoard.get i j = ' ' ∧ checkWin (scenarioBoard.set i j 'O') 'O' = true ∧
      (∀ i1 j1, cellBefore (i1, j1) (i, j) → scenarioBoard.get i1 j1 = ' ' →
        checkWin (scenarioBoard.set i1 j1 'O') 'O' = false) ∧
      computerMove scenarioBoard DifficultyLevel.MEDIUM 0 = some (scenarioBoard.set i j 'O') :=
  ⟨⟨1, 2, by decide, by decide⟩,
    medium_takes_first_win scenarioBoard 0 ⟨1, 2, by decide, by decide⟩⟩

/-- C11. Medium, second priority: on every board where no empty cell completes
a line for `'O'` but some empty cell would complete a line for `'X'`,
`computerMove(board, MEDIUM)` puts `'O'` on the first such cell in row-major
order and changes nothing else, whatever `rand()` returns. -/
theorem medium_blocks_first_threat (b : Board) (r : Nat)
    (hO : ∀ i j, b.get i j = ' ' → checkWin (b.set i j 'O') 'O' = false)
    (hX : ∃ i j, b.get i j = ' ' ∧ checkWin (b.set i j 'X') 'X' = true) :
    ∃ i j, b.get i j = ' ' ∧ checkWin (b.set i j 'X') 'X' = true ∧
      (∀ i1 j1, cellBefore (i1, j1) (i, j) → b.get i1 j1 = ' ' →
        checkWin (b.set i1 j1 'X') 'X' = false) ∧
      computerMove b DifficultyLevel.MEDIUM r = some (b.set i j 'O') := by
  obtain ⟨i0, j0, hg0, hw0⟩ := hX
  have h1 : probeCells 'O' allCells b = Ctl.next b := by
    rcases probeCells_spec 'O' b allCells with ⟨h, -⟩ | ⟨l1, p, l2, -, hg, hw, -⟩
    · exact h
    · rw [hO p.1 p.2 hg] at hw
      cases hw
  rcases probeCells_spec 'X' b allCells with ⟨-, h2⟩ | ⟨l1, p, l2, he, hg, hw, h3, h4⟩
  · have := h2 (i0, j0) (mem_allCells _) hg0
    rw [hw0] at this
    cases this
  · refine ⟨p.1, p.2, hg, hw, ?_, ?_⟩
    · intro i1 j1 hb hg1
      exact h4 (i1, j1) (before_mem_front l1 l2 p (i1, j1) he hb) hg1
    · show some (computerMoveMedium b r) = _
      unfold computerMoveMedium
      rw [tryWinRows_eq_cells, cellsOf_range3, h1]
      simp only
      rw [tryBlockRows_eq_cells, cellsOf_range3, h3]

theorem medium_blocks_first_threat_witness :
    (∀ i j, blockBoard.get i j = ' ' → checkWin (blockBoard.set i j 'O') 'O' = false) ∧
    (∃ i j, blockBoard.get i j = ' ' ∧ checkWin (blockBoard.set i j 'X') 'X' = true) ∧
    ∃ i j, blockBoard.get i j = ' ' ∧ checkWin (blockBoard.set i j 'X') 'X' = true ∧
      (∀ i1 j1, cellBefore (i1, j1) (i, j) → blockBoard.get i1 j1 = ' ' →
        checkWin (blockBoard.set i1 j1 'X') 'X' = false) ∧
      computerMove blockBoard DifficultyLevel.MEDIUM 0 = some (blockBoard.set i j 'O') :=
  ⟨by decide, ⟨0, 2, by decide, by decide⟩,
    medium_blocks_first_threat blockBoard 0 (by decide) ⟨0, 2, by decide, by decide⟩⟩

/-- C12. Medium, third priority: on every board where no empty cell completes a
line for `'O'`, none would complete a line for `'X'`, and the centre `(1, 1)`
is empty, `computerMove(board, MEDIUM)` puts `'O'` on `(1, 1)` and changes
nothing else, whatever `rand()` returns. -/
theorem medium_takes_center (b : Board) (r : Nat)
    (hO : ∀ i j, b.get i j = ' ' → checkWin (b.set i j 'O') 'O' = false)
    (hX : ∀ i j, b.get i j = ' ' → checkWin (b.set i j 'X') 'X' = false)
    (hc : b.get 1 1 = ' ') :
    computerMove b DifficultyLevel.MEDIUM r = some (b.set 1 1 'O') := by
  show some (computerMoveMedium b r) = _
  rw [medium_after_probes b r hO hX, hc]
  rfl

theorem medium_takes_center_witness :
    (∀ i j, cornerBoard.get i j = ' ' → checkWin (cornerBoard.set i j 'O') 'O' = false) ∧
    (∀ i j, cornerBoard.get i j = ' ' → checkWin (cornerBoard.set i j 'X') 'X' = false) ∧
    cornerBoard.get 1 1 = ' ' ∧
    computerMove cornerBoard DifficultyLevel.MEDIUM 0 = some (cornerBoard.set 1 1 'O') :=
  ⟨by decide, by decide, by decide,
    medium_takes_center cornerBoard 0 (by decide) (by decide) (by decide)⟩

/-- C13. Easy with the draw given: the vector `emptyCells` is the list of the
empty cells in row-major order; on every board with `n >= 1` empty cells and
for every value `r` of `rand()`, `computerMove(board, EASY)` puts `'O'` on the
cell of index `r mod n` of that list and changes nothing else; on the empty
board that is the cell `(r mod 9 div 3, r mod 9 mod 3)`. -/
theorem easy_places_drawn_cell (b : Board) (r : Nat)
    (h : 0 < (allCells.filter (fun p => b.get p.1 p.2 == ' ')).length) :
    (emptyCells b = allCells.filter (fun p => b.get p.1 p.2 == ' ')) ∧
    (∃ p, (allCells.filter (fun p => b.get p.1 p.2 == ' '))[r %
        (allCells.filter (fun p => b.get p.1 p.2 == ' ')).length]? = some p ∧
      computerMove b DifficultyLevel.EASY r = some (b.set p.1 p.2 'O')) ∧
    computerMove emptyBoard DifficultyLevel.EASY r =
      some (emptyBoard.set ⟨r % 9 / 3, by omega⟩ ⟨r % 9 % 3, by omega⟩ 'O') := by
  refine ⟨emptyCells_eq_filter b, ?_, ?_⟩
  · have hlt := Nat.mod_lt r h
    refine ⟨_, List.getElem?_eq_getElem hlt, ?_⟩
    show some (placeRandom b (emptyCells b) r) = _
    rw [emptyCells_eq_filter]
    exact congrArg some (placeRandom_get b _ r _ (List.getElem?_eq_getElem hlt))
  · show some (placeRandom emptyBoard (emptyCells emptyBoard) r) = _
    have he : emptyCells emptyBoard = allCells := by decide
    rw [he]
    exact congrArg some (placeRandom_get emptyBoard allCells r _
      (allCells_getElem (r % 9) (Nat.mod_lt _ (by decide))))

theorem easy_places_drawn_cell_witness :
    0 < (allCells.filter (fun p => scenarioBoard.get p.1 p.2 == ' ')).length ∧
    (emptyCells scenarioBoard = allCells.filter (fun p => scenarioBoard.get p.1 p.2 == ' ')) ∧
    (∃ p, (allCells.filter (fun p => scenarioBoard.get p.1 p.2 == ' '))[7 %
        (allCells.filter (fun p => scenarioBoard.get p.1 p.2 == ' ')).length]? = some p ∧
      computerMove scenarioBoard DifficultyLevel.EASY 7 = some (scenarioBoard.set p.1 p.2 'O')) ∧
    computerMove emptyBoard DifficultyLevel.EASY 7 =
      some (emptyBoard.set ⟨7 % 9 / 3, by omega⟩ ⟨7 % 9 % 3, by omega⟩ 'O') :=
  ⟨by decide, easy_places_drawn_cell scenarioBoard 7 (by decide)⟩

/-- C14, as the claim states it, fails: on the full board
`[[X,O,X],[X,O,O],[O,X,X]]` the call of `computerMove` returns normally at each
of the three difficulties and leaves the board as it was. -/
theorem computerMove_full_board_counterexample :
    isBoardFull drawBoard = true ∧
      computerMove drawBoard DifficultyLevel.EASY 0 = some drawBoard ∧
      computerMove drawBoard DifficultyLevel.MEDIUM 0 = some drawBoard ∧
      computerMove drawBoard DifficultyLevel.HARD 0 = some drawBoard := by
  decide

/-- C14, amended. `computerMove` signals no error on any board: it returns for
every board, difficulty and draw, and on a board with no empty cell it returns
with the board unchanged. -/
theorem computerMove_never_fails (b : Board) (d : DifficultyLevel) (r : Nat) :
    (∃ b1, computerMove b d r = some b1) ∧
      (isBoardFull b = true → computerMove b d r = some b) :=
  ⟨computerMove_returns b d r, computerMove_full b d r⟩

theorem computerMove_never_fails_witness :
    isBoardFull drawBoard = true ∧
      (∃ b1, computerMove drawBoard DifficultyLevel.HARD 0 = some b1) ∧
      computerMove drawBoard DifficultyLevel.HARD 0 = some drawBoard :=
  ⟨by decide, (computerMove_never_fails drawBoard DifficultyLevel.HARD 0).1,
    (computerMove_never_fails drawBoard DifficultyLevel.HARD 0).2 (by decide)⟩

/-- C15. For every board, `isBoardFull(board)` is true exactly when none of the
nine cells is `' '`. -/
theorem isBoardFull_iff_no_empty (b : Board) :
    isBoardFull b = true ↔ ∀ i j, b.get i j ≠ ' ' :=
  isBoardFull_iff b

/-- C18, as the claim states it, fails: a depth can be such that `10 - depth`
does not fit a 32-bit `int`. At `depth = -2147483648` on a board won by `'O'`,
`minimax` returns the wrapped value `-2147483638`, not `10 - depth`, and this
score at the smaller depth is below the `10` returned at depth `0`. -/
theorem terminal_evaluation_counterexample :
    checkWin oWonBoard 'O' = true ∧
      minimax oWonBoard (-2147483648) true (-1000) 1000 = some (-2147483638, oWonBoard) ∧
      minimax oWonBoard (-2147483648) true (-1000) 1000 ≠
        some (10 - (-2147483648), oWonBoard) ∧
      minimax oWonBoard 0 true (-1000) 1000 = some (10, oWonBoard) ∧
      (-2147483648 : Int) < 0 ∧ (-2147483638 : Int) < 10 := by
  decide

/-- C18, amended. Terminal evaluation: for every board, every depth from
`-2147483637` to `2147483647` (the depths for which `10 - depth` and
`depth - 10` fit a 32-bit `int`; the search itself uses `0..9`), every side and
window, `minimax` returns `10 - depth` if `'O'` has a line; otherwise
`depth - 10` if `'X'` has a line; otherwise `0` if the board is full. Hence of
two boards won by `'O'` at such depths the one evaluated at the smaller depth
scores strictly higher, and of two boards won by `'X'` the one at the smaller
depth scores strictly lower. -/
theorem terminal_evaluation (b : Board) (depth : Int) (isMaximizing : Bool) (alpha beta : Int)
    (hlo : -2147483637 ≤ depth) (hhi : depth ≤ 2147483647) :
    (checkWin b 'O' = true →
      minimax b depth isMaximizing alpha beta = some (10 - depth, b)) ∧
    (checkWin b 'O' = false → checkWin b 'X' = true →
      minimax b depth isMaximizing alpha beta = some (depth - 10, b)) ∧
    (checkWin b 'O' = false → checkWin b 'X' = false → isBoardFull b = true →
      minimax b depth isMaximizing alpha beta = some (0, b)) ∧
    (∀ (b2 : Board) (depth2 : Int) (m2 : Bool) (a2 β2 s s2 : Int),
      -2147483637 ≤ depth2 → depth2 ≤ 2147483647 → depth < depth2 →
      minimax b depth isMaximizing alpha beta = some (s, b) →
      minimax b2 depth2 m2 a2 β2 = some (s2, b2) →
      (checkWin b 'O' = true → checkWin b2 'O' = true → s2 < s) ∧
      (checkWin b 'O' = false → checkWin b 'X' = true → checkWin b2 'O' = false →
        checkWin b2 'X' = true → s < s2)) := by
  have hwO : ∀ (b1 : Board) (d : Int) (m : Bool) (a β1 : Int), -2147483637 ≤ d →
      d ≤ 2147483647 → checkWin b1 'O' = true →
      minimax b1 d m a β1 = some (10 - d, b1) := by
    intro b1 d m a β1 h1 h2 hO
    have := minimaxFuel_winO 9 b1 d m a β1 hO
    rw [wrapInt_small _ (by omega) (by omega)] at this
    exact this
  have hwX : ∀ (b1 : Board) (d : Int) (m : Bool) (a β1 : Int), -2147483637 ≤ d →
      d ≤ 2147483647 → checkWin b1 'O' = false → checkWin b1 'X' = true →
      minimax b1 d m a β1 = some (d - 10, b1) := by
    intro b1 d m a β1 h1 h2 hO hX
    have := minimaxFuel_winX 9 b1 d m a β1 hO hX
    rw [wrapInt_small _ (by omega) (by omega)] at this
    exact this
  refine ⟨hwO b depth _ _ _ hlo hhi, hwX b depth _ _ _ hlo hhi,
    fun h1 h2 h3 => minimaxFuel_full _ _ _ _ _ _ h1 h2 h3, ?_⟩
  intro b2 depth2 m2 a2 β2 s s2 hlo2 hhi2 hlt hs hs2
  constructor
  · intro h1 h2
    rw [hwO b depth _ _ _ hlo hhi h1] at hs
    rw [hwO b2 depth2 _ _ _ hlo2 hhi2 h2] at hs2
    cases hs
    cases hs2
    omega
  · intro h1 h2 h3 h4
    rw [hwX b depth _ _ _ hlo hhi h1 h2] at hs
    rw [hwX b2 depth2 _ _ _ hlo2 hhi2 h3 h4] at hs2
    cases hs
    cases hs2
    omega

theorem terminal_evaluation_witness :
    (-2147483637 : Int) ≤ 0 ∧ (0 : Int) ≤ 2147483647 ∧ (-2147483637 : Int) ≤ 2 ∧
    (2 : Int) ≤ 2147483647 ∧ (0 : Int) < 2 ∧ checkWin oWonBoard 'O' = true ∧
    checkWin xWonBoard 'O' = false ∧ checkWin xWonBoard 'X' = true ∧
    checkWin drawBoard 'O' = false ∧ checkWin drawBoard 'X' = false ∧
    isBoardFull drawBoard = true ∧
    minimax oWonBoard 0 true (-1000) 1000 = some (10, oWonBoard) ∧
    minimax oWonBoard 2 false (-1000) 1000 = some (8, oWonBoard) ∧
    minimax xWonBoard 0 true (-1000) 1000 = some (-10, xWonBoard) ∧
    minimax xWonBoard 2 false (-1000) 1000 = some (-8, xWonBoard) ∧
    minimax drawBoard 0 true (-1000) 1000 = some (0, drawBoard) ∧
    (8 : Int) < 10 ∧ (-10 : Int) < -8 := by
  have hO := terminal_evaluation oWonBoard 0 true (-1000) 1000 (by decide) (by decide)
  have hX := terminal_evaluation xWonBoard 0 true (-1000) 1000 (by decide) (by decide)
  have hD := terminal_evaluation drawBoard 0 true (-1000) 1000 (by decide) (by decide)
  have h1 : minimax oWonBoard 0 true (-1000) 1000 = some (10, oWonBoard) := hO.1 (by decide)
  have h2 : minimax oWonBoard 2 false (-1000) 1000 = some (8, oWonBoard) :=
    (terminal_evaluation oWonBoard 2 false (-1000) 1000 (by decide) (by decide)).1 (by decide)
  have h3 : minimax xWonBoard 0 true (-1000) 1000 = some (-10, xWonBoard) :=
    hX.2.1 (by decide) (by decide)
  have h4 : minimax xWonBoard 2 false (-1000) 1000 = some (-8, xWonBoard) :=
    (terminal_evaluation xWonBoard 2 false (-1000) 1000 (by decide) (by decide)).2.1
      (by decide) (by decide)
  exact ⟨by decide, by decide, by decide, by decide, by decide, by decide, by decide,
    by decide, by decide, by decide, by decide, h1, h2, h3, h4,
    hD.2.2.1 (by decide) (by decide) (by decide),
    (hO.2.2.2 oWonBoard 2 false (-1000) 1000 10 8 (by decide) (by decide) (by decide) h1 h2).1
      (by decide) (by decide),
    (hX.2.2.2 xWonBoard 2 false (-1000) 1000 (-10) (-8) (by decide) (by decide) (by decide)
      h3 h4).2 (by decide) (by decide) (by decide) (by decide)⟩

/-- C20. Score range: for every board and either side, `minimax(board, 0,
isMaximizing)` with the default window returns a score in `[-10, 10]`; it is
neither `-1000` nor `1000`, and it is strictly above the initial
`bestScore = -1000` of the Hard branch. -/
theorem score_range (b : Board) (isMaximizing : Bool) :
    ∃ s, minimax b 0 isMaximizing (-1000) 1000 = some (s, b) ∧ -10 ≤ s ∧ s ≤ 10 ∧
      s ≠ -1000 ∧ s ≠ 1000 ∧ (-1000 : Int) < s := by
  obtain ⟨t, h1, -, h3, h4⟩ := minimax_eq_plain b isMaximizing
  exact ⟨t, h1, h3, h4, by omega, by omega, by omega⟩

/-- C17: the code at the failing input. On `[[O,_,X],[_,X,O],[O,X,X]]` at depth
`1`, maximizing, with `alpha = -1000` and `beta = -9`, the first empty cell
`(0, 1)` scores `0`, so `beta <= alpha` holds after it. The search that stops
there returns `0`; `minimax` goes on to row `1`, evaluates `(1, 0)`, which
completes a column for `'O'`, and returns `8`. -/
theorem break_leaves_inner_loop_only :
    minimax cutoffBoard 1 true (-1000) (-9) = some (8, cutoffBoard) ∧
      minimaxCut cutoffBoard 1 true (-1000) (-9) = some 0 ∧
      minimax (cutoffBoard.set 0 1 'O') 2 false (-1000) (-9) = some (0, cutoffBoard.set 0 1 'O') ∧
      minimax (cutoffBoard.set 1 0 'O') 2 false 0 (-9) = some (8, cutoffBoard.set 1 0 'O') := by
  decide

/-- C16. Two Hard players against each other from the empty board always tie:
with `'X'` moving first and every move of both sides chosen by the Hard policy
(for `'X'` with the roles exchanged), whatever `rand()` returns, the round is
over within nine passes of the loop, on a full board with no line of `'X'` and
no line of `'O'`. -/
theorem hard_vs_hard_ties (draws : Nat → Nat) :
    ∃ s, selfPlay draws 9 roundStart = some s ∧ s.roundOver = true ∧
      isBoardFull s.board = true ∧ checkWin s.board 'X' = false ∧
      checkWin s.board 'O' = false := by
  obtain ⟨s, h1, hinv, hover⟩ := selfPlay_spec draws 9 roundStart SelfInv_start (by decide)
  have hX : checkWin s.board 'X' = false := safe_no_line s hinv.1
  have hO : checkWin s.board 'O' = false := by
    have := safe_no_line _ hinv.2.1
    rw [← checkWin_swapBoard_X]
    exact this
  refine ⟨s, h1, hover, ?_, hX, hO⟩
  rcases hinv.2.2.2 hover with h | h | h
  · rw [hX] at h; cases h
  · rw [hO] at h; cases h
  · exact h

/-- C21. On every board with an empty cell, at every difficulty and for every
value of `rand()`, `computerMove` returns a board that differs from the board
before in exactly one cell: that cell was `' '` before and holds `'O'` after,
and every other cell is as before. So no mark that was on the board is
overwritten, and every `'X'` on the board after was there before: the `'X'`
that Medium places to test a block is never left behind. -/
theorem computerMove_changes_one_cell (b : Board) (difficulty : DifficultyLevel) (r : Nat)
    (h : ∃ i j, b.get i j = ' ') :
    ∃ b1 i j, computerMove b difficulty r = some b1 ∧ b.get i j = ' ' ∧ b1.get i j = 'O' ∧
      (∀ i1 j1, ¬ (i1 = i ∧ j1 = j) → b1.get i1 j1 = b.get i1 j1) ∧
      (∀ i1 j1, b.get i1 j1 ≠ ' ' → b1.get i1 j1 = b.get i1 j1) ∧
      (∀ i1 j1, b1.get i1 j1 = 'X' → b.get i1 j1 = 'X') := by
  obtain ⟨p, hp, hmv⟩ := computerMove_places_one b difficulty r h
  have hne : ∀ i1 j1, ¬ (i1 = p.1 ∧ j1 = p.2) →
      (b.set p.1 p.2 'O').get i1 j1 = b.get i1 j1 :=
    fun i1 j1 hn => get_set_ne b p.1 p.2 i1 j1 'O' hn
  refine ⟨b.set p.1 p.2 'O', p.1, p.2, hmv, hp, get_set_same _ _ _ _, hne, ?_, ?_⟩
  · intro i1 j1 hm
    apply hne
    rintro ⟨rfl, rfl⟩
    exact hm hp
  · intro i1 j1 hx
    by_cases hn : i1 = p.1 ∧ j1 = p.2
    · obtain ⟨rfl, rfl⟩ := hn
      rw [get_set_same] at hx
      exact absurd hx (by decide)
    · rw [hne i1 j1 hn] at hx
      exact hx

theorem computerMove_changes_one_cell_witness :
    (∃ i j, blockBoard.get i j = ' ') ∧
    ∃ b1 i j, computerMove blockBoard DifficultyLevel.MEDIUM 0 = some b1 ∧
      blockBoard.get i j = ' ' ∧ b1.get i j = 'O' ∧
      (∀ i1 j1, ¬ (i1 = i ∧ j1 = j) → b1.get i1 j1 = blockBoard.get i1 j1) ∧
      (∀ i1 j1, blockBoard.get i1 j1 ≠ ' ' → b1.get i1 j1 = blockBoard.get i1 j1) ∧
      (∀ i1 j1, b1.get i1 j1 = 'X' → blockBoard.get i1 j1 = 'X') :=
  ⟨⟨0, 2, by decide⟩,
    computerMove_changes_one_cell blockBoard DifficultyLevel.MEDIUM 0 ⟨0, 2, by decide⟩⟩

end TicTacToe
